import Mathlib

/-!
# Verification of the sorting program (`src/main.cpp`)

A shallow embedding of the program in Lean 4.  The mutable
`std::vector<int>` is modelled as a `List Int`; in-place index updates
become functional updates (`List.set`); the machine integers used as
indices (`int`, `size_t`) are modelled as `Int` and `Nat` (no index
computation in any reachable execution overflows the machine width, and
the single place where unsigned wrap-around matters — `data.size() - 1`
on an empty vector, which converts to `int` as `-1` — is modelled
explicitly).  Out-of-range `operator[]` accesses are undefined behaviour
in C++; the primary embedding reads out-of-range positions as a default
value, and a separate bounds-checked interpreter (`getE`, `partLoopE`,
…) returning `Option` certifies that no reachable access is actually out
of range.
-/

/-- `std::swap(data[a], data[b])`: the list with positions `a` and `b`
exchanged.  (`List.set` ignores out-of-range positions.) -/
def swapAt (data : List Int) (a b : Nat) : List Int :=
  (data.set a (data.getD b 0)).set b (data.getD a 0)

@[simp] theorem swapAt_length (data : List Int) (a b : Nat) :
    (swapAt data a b).length = data.length := by
  simp [swapAt]

theorem getD_set_of_ne (l : List Int) (i k : Nat) (v : Int) (h : i ≠ k) :
    (l.set i v).getD k 0 = l.getD k 0 := by
  simp only [List.getD_eq_getElem?_getD, List.getElem?_set_ne h]

theorem getD_set_self (l : List Int) (i : Nat) (v : Int) (h : i < l.length) :
    (l.set i v).getD i 0 = v := by
  simp only [List.getD_eq_getElem?_getD, List.getElem?_set_self h, Option.getD_some]

/-- Value at position `k` after swapping positions `a` and `b` (both in
range). -/
theorem getD_swapAt (data : List Int) (a b k : Nat)
    (ha : a < data.length) (hb : b < data.length) :
    (swapAt data a b).getD k 0 =
      if k = b then data.getD a 0
      else if k = a then data.getD b 0
      else data.getD k 0 := by
  unfold swapAt
  by_cases hkb : k = b
  · subst hkb
    rw [getD_set_self _ _ _ (by simpa using hb), if_pos rfl]
  · rw [getD_set_of_ne _ _ _ _ (fun h => hkb h.symm), if_neg hkb]
    by_cases hka : k = a
    · subst hka
      rw [getD_set_self _ _ _ ha, if_pos rfl]
    · rw [getD_set_of_ne _ _ _ _ (fun h => hka h.symm), if_neg hka]

theorem getD_swapAt_of_ne (data : List Int) (a b k : Nat)
    (hka : k ≠ a) (hkb : k ≠ b) :
    (swapAt data a b).getD k 0 = data.getD k 0 := by
  unfold swapAt
  rw [getD_set_of_ne _ _ _ _ (fun h => hkb h.symm),
    getD_set_of_ne _ _ _ _ (fun h => hka h.symm)]

theorem set_getD_self :
    ∀ (l : List Int) (i : Nat), i < l.length → l.set i (l.getD i 0) = l
  | _ :: _, 0, _ => rfl
  | x :: t, i + 1, h => by
    show x :: t.set i (t.getD i 0) = x :: t
    rw [set_getD_self t i (by simpa using h)]

theorem swapAt_self (data : List Int) (a : Nat) (ha : a < data.length) :
    swapAt data a a = data := by
  unfold swapAt
  rw [set_getD_self data a ha, set_getD_self data a ha]

theorem swapAt_comm (data : List Int) (a b : Nat) :
    swapAt data a b = swapAt data b a := by
  by_cases h : a = b
  · rw [h]
  · unfold swapAt
    exact List.set_comm _ _ data h

/-- Writing `x` into position `m` while pulling out the old value `t[m]`
is a permutation-preserving exchange with a cons cell. -/
theorem getD_cons_set_perm :
    ∀ (t : List Int) (m : Nat) (x : Int), m < t.length →
      List.Perm (t.getD m 0 :: t.set m x) (x :: t)
  | y :: t2, 0, x, _ => by
    simpa using List.Perm.swap x y t2
  | y :: t2, m + 1, x, hm => by
    have ih := getD_cons_set_perm t2 m x (by simpa using hm)
    show List.Perm (t2.getD m 0 :: y :: t2.set m x) (x :: y :: t2)
    exact ((List.Perm.swap y (t2.getD m 0) _).trans
      (List.Perm.cons y ih)).trans (List.Perm.swap x y t2)

theorem swapAt_perm_lt :
    ∀ (l : List Int) (a b : Nat), a < b → b < l.length →
      List.Perm (swapAt l a b) l
  | x :: t, 0, b' + 1, _, hb => by
    show List.Perm (((x :: t).set 0 (t.getD b' 0)).set (b' + 1) x) (x :: t)
    have hb' : b' < t.length := by simpa using hb
    simpa using getD_cons_set_perm t b' x hb'
  | x :: t, a' + 1, b' + 1, hab, hb => by
    show List.Perm (x :: swapAt t a' b') (x :: t)
    exact List.Perm.cons x
      (swapAt_perm_lt t a' b' (by omega) (by simpa using hb))

theorem swapAt_perm (data : List Int) (a b : Nat)
    (ha : a < data.length) (hb : b < data.length) :
    List.Perm (swapAt data a b) data := by
  rcases Nat.lt_trichotomy a b with hab | hab | hab
  · exact swapAt_perm_lt data a b hab hb
  · rw [hab, swapAt_self data b hb]
  · rw [swapAt_comm]
    exact swapAt_perm_lt data b a hab ha

namespace BubbleSort

/-- Inner loop of `BubbleSort::sort` (`src/main.cpp` lines 21–25):
`for (size_t j = 0; j < bound; ++j) if (data[j] > data[j+1])
std::swap(data[j], data[j+1]);` where `bound = data.size() - i - 1`. -/
def innerLoop (data : List Int) (j bound : Nat) : List Int :=
  if j < bound then
    innerLoop
      (if data.getD j 0 > data.getD (j + 1) 0 then swapAt data j (j + 1) else data)
      (j + 1) bound
  else data
termination_by bound - j

@[simp] theorem innerLoop_length (data : List Int) (j bound : Nat) :
    (innerLoop data j bound).length = data.length := by
  rw [innerLoop]
  split
  · rw [innerLoop_length _ (j + 1) bound]
    split <;> simp
  · rfl
termination_by bound - j

/-- Outer loop of `BubbleSort::sort` (`src/main.cpp` lines 20–26):
`for (size_t i = 0; i < data.size(); ++i)` runs the inner loop with
bound `data.size() - i - 1` (the loop condition re-reads the size, which
swapping never changes). -/
def outerLoop (data : List Int) (i : Nat) : List Int :=
  if i < data.length then
    outerLoop (innerLoop data 0 (data.length - i - 1)) (i + 1)
  else data
termination_by data.length - i
decreasing_by
  rw [innerLoop_length]
  omega

/-- `BubbleSort::sort` (`src/main.cpp` lines 19–27). -/
def sort (data : List Int) : List Int :=
  outerLoop data 0

end BubbleSort

namespace QuickSort

/-- Read `data[j]` where `j` is a C++ `int` index (in range in every
reachable execution). -/
def getI (data : List Int) (j : Int) : Int :=
  data.getD j.toNat 0

/-- `std::swap(data[a], data[b])` with `int` indices. -/
def swapI (data : List Int) (a b : Int) : List Int :=
  swapAt data a.toNat b.toNat

/-- Scan loop of `QuickSort::partition` (`src/main.cpp` lines 48–52):
`for (int j = low; j < high; ++j) if (data[j] < pivot)
std::swap(data[++i], data[j]);`.  The state is `(i, data)`. -/
def partLoop (data : List Int) (pivot : Int) (i j high : Int) : Int × List Int :=
  if j < high then
    if getI data j < pivot then
      partLoop (swapI data (i + 1) j) pivot (i + 1) (j + 1) high
    else
      partLoop data pivot i (j + 1) high
  else (i, data)
termination_by (high - j).toNat
decreasing_by
  · omega
  · omega

theorem partLoop_fst_ge (data : List Int) (pivot : Int) (i j high : Int) :
    i ≤ (partLoop data pivot i j high).1 := by
  induction data, pivot, i, j, high using partLoop.induct with
  | case1 data pivot i j high h hlt ih =>
    rw [partLoop, if_pos h, if_pos hlt]
    omega
  | case2 data pivot i j high h hlt ih =>
    rw [partLoop, if_pos h, if_neg hlt]
    omega
  | case3 data pivot i j high h =>
    rw [partLoop, if_neg h]

theorem partLoop_fst_lt (data : List Int) (pivot : Int) (i j high : Int)
    (hij : i < j) (hjh : j ≤ high) :
    (partLoop data pivot i j high).1 < high := by
  induction data, pivot, i, j, high using partLoop.induct with
  | case1 data pivot i j high h hlt ih =>
    rw [partLoop, if_pos h, if_pos hlt]
    exact ih (by omega) (by omega)
  | case2 data pivot i j high h hlt ih =>
    rw [partLoop, if_pos h, if_neg hlt]
    exact ih (by omega) (by omega)
  | case3 data pivot i j high h =>
    rw [partLoop, if_neg h]
    omega

@[simp] theorem partLoop_snd_length (data : List Int) (pivot : Int) (i j high : Int) :
    (partLoop data pivot i j high).2.length = data.length := by
  induction data, pivot, i, j, high using partLoop.induct with
  | case1 data pivot i j high h hlt ih =>
    rw [partLoop, if_pos h, if_pos hlt]
    simpa [swapI] using ih
  | case2 data pivot i j high h hlt ih =>
    rw [partLoop, if_pos h, if_neg hlt]
    exact ih
  | case3 data pivot i j high h =>
    rw [partLoop, if_neg h]

/-- `QuickSort::partition` (`src/main.cpp` lines 45–55). -/
def partition (data : List Int) (low high : Int) : Int × List Int :=
  let pivot := getI data high
  let r := partLoop data pivot (low - 1) low high
  (r.1 + 1, swapI r.2 (r.1 + 1) high)

theorem partition_fst_ge (data : List Int) (low high : Int) :
    low ≤ (partition data low high).1 := by
  have h := partLoop_fst_ge data (getI data high) (low - 1) low high
  simp only [partition]
  omega

theorem partition_fst_le (data : List Int) (low high : Int) (h : low < high) :
    (partition data low high).1 ≤ high := by
  have h2 := partLoop_fst_lt data (getI data high) (low - 1) low high
    (by omega) (by omega)
  simp only [partition]
  omega

@[simp] theorem partition_snd_length (data : List Int) (low high : Int) :
    (partition data low high).2.length = data.length := by
  simp [partition, swapI]

/-- `QuickSort::quicksort` (`src/main.cpp` lines 37–43). -/
def quicksort (data : List Int) (low high : Int) : List Int :=
  if low < high then
    quicksort (quicksort (partition data low high).2 low
      ((partition data low high).1 - 1)) ((partition data low high).1 + 1) high
  else data
termination_by (high - low).toNat
decreasing_by
  · have h2 := partition_fst_le data low high (by assumption)
    omega
  · have h1 := partition_fst_ge data low high
    omega

/-- `QuickSort::sort` (`src/main.cpp` lines 32–34):
`quicksort(data, 0, data.size() - 1)`.  The second bound is computed in
`size_t` and converted to `int`: for an empty vector it wraps around and
converts to `-1`, and for any realistic nonempty vector it is
`size - 1`; both cases equal `(length : Int) - 1`. -/
def sort (data : List Int) : List Int :=
  quicksort data 0 ((data.length : Int) - 1)

end QuickSort

/-! ## Generic helpers: relating `getD`, `take`, `drop` and permutations -/

theorem getD_eq_getElem_int (l : List Int) (k : Nat) (h : k < l.length) :
    l.getD k 0 = l[k] := by
  simp only [List.getD_eq_getElem?_getD, List.getElem?_eq_getElem h, Option.getD_some]

theorem take_eq_of_getD_eq (l₁ l₂ : List Int) (m : Nat)
    (hlen : l₁.length = l₂.length)
    (h : ∀ k, k < m → l₁.getD k 0 = l₂.getD k 0) :
    l₁.take m = l₂.take m := by
  apply List.ext_getElem (by simp [hlen])
  intro n h1 h2
  have hn : n < l₁.length := by simp at h1; omega
  have hn2 : n < l₂.length := by omega
  have hm : n < m := by simp at h1; omega
  rw [List.getElem_take, List.getElem_take, ← getD_eq_getElem_int _ _ hn,
    ← getD_eq_getElem_int _ _ hn2]
  exact h n hm

theorem drop_eq_of_getD_eq (l₁ l₂ : List Int) (m : Nat)
    (hlen : l₁.length = l₂.length)
    (h : ∀ k, m ≤ k → l₁.getD k 0 = l₂.getD k 0) :
    l₁.drop m = l₂.drop m := by
  apply List.ext_getElem (by simp [hlen])
  intro n h1 h2
  have hn : m + n < l₁.length := by simp at h1; omega
  have hn2 : m + n < l₂.length := by omega
  rw [List.getElem_drop, List.getElem_drop, ← getD_eq_getElem_int _ _ hn,
    ← getD_eq_getElem_int _ _ hn2]
  exact h (m + n) (by omega)

theorem take_perm_of_perm_of_drop_eq (l₁ l₂ : List Int) (m : Nat)
    (hp : List.Perm l₁ l₂) (hd : l₁.drop m = l₂.drop m) :
    List.Perm (l₁.take m) (l₂.take m) := by
  have h : List.Perm (l₁.take m ++ l₁.drop m) (l₂.take m ++ l₂.drop m) := by
    rw [List.take_append_drop, List.take_append_drop]
    exact hp
  rw [hd] at h
  exact (List.perm_append_right_iff _).1 h

/-- A permutation that fixes every position below `a` and every position
from `b` on restricts to a permutation of the window `[a, b)`. -/
theorem seg_perm_of_perm_frame (l₁ l₂ : List Int) (a b : Nat)
    (hlen : l₁.length = l₂.length) (hp : List.Perm l₁ l₂)
    (hlow : ∀ k, k < a → l₁.getD k 0 = l₂.getD k 0)
    (hhigh : ∀ k, b ≤ k → l₁.getD k 0 = l₂.getD k 0) :
    List.Perm ((l₁.drop a).take (b - a)) ((l₂.drop a).take (b - a)) := by
  have hdp : List.Perm (l₁.drop a) (l₂.drop a) := by
    have hta : l₁.take a = l₂.take a := take_eq_of_getD_eq l₁ l₂ a hlen hlow
    have h : List.Perm (l₁.take a ++ l₁.drop a) (l₂.take a ++ l₂.drop a) := by
      rw [List.take_append_drop, List.take_append_drop]
      exact hp
    rw [hta] at h
    exact (List.perm_append_left_iff _).1 h
  apply take_perm_of_perm_of_drop_eq _ _ _ hdp
  rw [List.drop_drop, List.drop_drop]
  by_cases hab : a ≤ b
  · have hb : a + (b - a) = b := by omega
    rw [hb]
    exact drop_eq_of_getD_eq l₁ l₂ b hlen hhigh
  · have hb : a + (b - a) = a := by omega
    rw [hb]
    exact drop_eq_of_getD_eq l₁ l₂ a hlen (fun k hk => hhigh k (by omega))

theorem getD_mem_window (l : List Int) (a b k : Nat)
    (hak : a ≤ k) (hkb : k < b) (hbl : b ≤ l.length) :
    l.getD k 0 ∈ (l.drop a).take (b - a) := by
  have hk : k < l.length := by omega
  rw [getD_eq_getElem_int _ _ hk]
  rw [List.mem_iff_getElem]
  refine ⟨k - a, by simp [List.length_take, List.length_drop]; omega, ?_⟩
  rw [List.getElem_take, List.getElem_drop]
  congr 1
  omega

theorem mem_window_getD (l : List Int) (a b : Nat) (x : Int)
    (hbl : b ≤ l.length) (hx : x ∈ (l.drop a).take (b - a)) :
    ∃ k, a ≤ k ∧ k < b ∧ l.getD k 0 = x := by
  rw [List.mem_iff_getElem] at hx
  obtain ⟨n, hn, he⟩ := hx
  have hn' : n < b - a := by simp [List.length_take, List.length_drop] at hn; omega
  have hna : a + n < l.length := by
    simp [List.length_take, List.length_drop] at hn
    omega
  refine ⟨a + n, by omega, by omega, ?_⟩
  rw [getD_eq_getElem_int _ _ hna]
  rw [List.getElem_take, List.getElem_drop] at he
  exact he

/-! ## BubbleSort correctness -/

namespace BubbleSort

theorem innerLoop_perm (data : List Int) (j bound : Nat)
    (hb : bound < data.length) :
    List.Perm (innerLoop data j bound) data := by
  rw [innerLoop]
  split
  · rename_i hj
    set d2 := if data.getD j 0 > data.getD (j + 1) 0
      then swapAt data j (j + 1) else data with hd2
    have hperm : List.Perm d2 data := by
      rw [hd2]
      split
      · exact swapAt_perm data j (j + 1) (by omega) (by omega)
      · exact List.Perm.refl data
    have hlen : bound < d2.length := by
      rw [hd2]; split <;> simpa using hb
    exact (innerLoop_perm d2 (j + 1) bound hlen).trans hperm
  · exact List.Perm.refl data
termination_by bound - j

theorem innerLoop_frame (data : List Int) (j bound : Nat) :
    ∀ k, bound < k → (innerLoop data j bound).getD k 0 = data.getD k 0 := by
  intro k hk
  rw [innerLoop]
  split
  · rename_i hj
    rw [innerLoop_frame _ (j + 1) bound k hk]
    split
    · exact getD_swapAt_of_ne data j (j + 1) k (by omega) (by omega)
    · rfl
  · rfl
termination_by bound - j

/-- Invariant of the inner pass: if the element at the scan position
dominates everything before it, then at the end the element at position
`bound` dominates all of `[0, bound)`. -/
theorem innerLoop_max (data : List Int) (j bound : Nat)
    (hb : bound < data.length) (hj : j ≤ bound)
    (hP : ∀ p, p < j → data.getD p 0 ≤ data.getD j 0) :
    ∀ p, p < bound →
      (innerLoop data j bound).getD p 0 ≤ (innerLoop data j bound).getD bound 0 := by
  rw [innerLoop]
  split
  · rename_i hjb
    set d2 := if data.getD j 0 > data.getD (j + 1) 0
      then swapAt data j (j + 1) else data with hd2
    have hlen : bound < d2.length := by
      rw [hd2]; split <;> simpa using hb
    apply innerLoop_max d2 (j + 1) bound hlen (by omega)
    intro p hp
    rw [hd2]
    split
    · rename_i hgt
      have hjl : j < data.length := by omega
      have hj1l : j + 1 < data.length := by omega
      have he1 : (swapAt data j (j + 1)).getD (j + 1) 0 = data.getD j 0 := by
        rw [getD_swapAt data j (j + 1) (j + 1) hjl hj1l, if_pos rfl]
      rw [he1]
      by_cases hpj : p = j
      · rw [hpj, getD_swapAt data j (j + 1) j hjl hj1l, if_neg (by omega),
          if_pos rfl]
        omega
      · rw [getD_swapAt data j (j + 1) p hjl hj1l, if_neg (by omega),
          if_neg hpj]
        exact hP p (by omega)
    · rename_i hle
      push_neg at hle
      by_cases hpj : p = j
      · subst hpj
        exact hle
      · exact le_trans (hP p (by omega)) hle
  · rename_i hjb
    have hjeq : j = bound := by omega
    subst hjeq
    exact hP
termination_by bound - j

/-- The inner pass only permutes the prefix `[0, bound]`. -/
theorem innerLoop_take_perm (data : List Int) (bound : Nat)
    (hb : bound < data.length) :
    List.Perm ((innerLoop data 0 bound).take (bound + 1))
      (data.take (bound + 1)) := by
  have hp := innerLoop_perm data 0 bound hb
  have hlen := innerLoop_length data 0 bound
  have hd : (innerLoop data 0 bound).drop (bound + 1) = data.drop (bound + 1) :=
    drop_eq_of_getD_eq _ _ _ hlen
      (fun k hk => innerLoop_frame data 0 bound k (by omega))
  exact take_perm_of_perm_of_drop_eq _ _ _ hp hd

/-- Combined invariant for the outer loop: after `i` passes, the suffix
of length `i` holds, in sorted order, elements dominating the rest. -/
theorem outerLoop_spec (data : List Int) (i : Nat)
    (hinv : ∀ p q : Nat, p < q → q < data.length →
      data.length - i ≤ q → data.getD p 0 ≤ data.getD q 0) :
    List.Perm (outerLoop data i) data ∧
    (∀ p q : Nat, p < q → q < data.length →
      (outerLoop data i).getD p 0 ≤ (outerLoop data i).getD q 0) := by
  rw [outerLoop]
  split
  · rename_i hi
    set bound := data.length - i - 1 with hbound
    have hblt : bound < data.length := by omega
    set d2 := innerLoop data 0 bound with hd2
    have hlen : d2.length = data.length := innerLoop_length data 0 bound
    have htp : List.Perm (d2.take (bound + 1)) (data.take (bound + 1)) :=
      innerLoop_take_perm data bound hblt
    have hinv2 : ∀ p q : Nat, p < q → q < d2.length →
        d2.length - (i + 1) ≤ q → d2.getD p 0 ≤ d2.getD q 0 := by
      intro p q hpq hq hsuf
      rw [hlen] at hq hsuf
      by_cases hqb : bound < q
      · -- position q untouched by the pass
        have hq2 : d2.getD q 0 = data.getD q 0 :=
          innerLoop_frame data 0 bound q hqb
        rw [hq2]
        by_cases hpb : bound < p
        · have hp2 : d2.getD p 0 = data.getD p 0 :=
            innerLoop_frame data 0 bound p hpb
          rw [hp2]
          exact hinv p q hpq hq (by omega)
        · -- p is in the permuted prefix: its value is some original
          -- prefix element, all of which are dominated by data[q]
          push_neg at hpb
          have hmem : d2.getD p 0 ∈ d2.take (bound + 1) := by
            have := getD_mem_window d2 0 (bound + 1) p (by omega)
              (by omega) (by omega)
            simpa using this
          have hmem2 : d2.getD p 0 ∈ data.take (bound + 1) :=
            htp.mem_iff.1 hmem
          have hmem3 : d2.getD p 0 ∈ (data.drop 0).take (bound + 1 - 0) := by
            simpa using hmem2
          obtain ⟨p0, _, hp0b, hp0e⟩ :=
            mem_window_getD data 0 (bound + 1) _ (by omega) hmem3
          rw [← hp0e]
          exact hinv p0 q (by omega) hq (by omega)
      · -- q = bound: the pass drove the maximum of the prefix there
        push_neg at hqb
        have hqeq : q = bound := by omega
        rw [hqeq]
        exact innerLoop_max data 0 bound hblt (by omega)
          (by intro r hr; omega) p (by omega)
    have ih := outerLoop_spec d2 (i + 1) hinv2
    refine ⟨ih.1.trans (innerLoop_perm data 0 bound hblt), ?_⟩
    intro p q hpq hq
    exact ih.2 p q hpq (by omega)
  · rename_i hi
    push_neg at hi
    refine ⟨List.Perm.refl data, ?_⟩
    intro p q hpq hq
    exact hinv p q hpq hq (by omega)
termination_by data.length - i
decreasing_by
  rw [innerLoop_length]
  omega

/-- `BubbleSort::sort` permutes its input. -/
theorem bsort_perm (data : List Int) : List.Perm (sort data) data := by
  have h := outerLoop_spec data 0 (by intro p q hpq hq hs; omega)
  exact h.1

/-- `BubbleSort::sort` sorts: any two positions are ordered. -/
theorem bsort_pairs (data : List Int) :
    ∀ p q : Nat, p < q → q < data.length →
      (sort data).getD p 0 ≤ (sort data).getD q 0 := by
  have h := outerLoop_spec data 0 (by intro p q hpq hq hs; omega)
  exact h.2

@[simp] theorem bsort_length (data : List Int) :
    (sort data).length = data.length := by
  exact (bsort_perm data).length_eq

end BubbleSort

/-! ## QuickSort correctness -/

namespace QuickSort

/-- Positions outside `[low, high - 1]` are never written by the scan
loop. -/
theorem partLoop_frame (data : List Int) (pivot : Int) (i j high low : Int)
    (hlow : 0 ≤ low) (hi : low ≤ i + 1) (hj : low ≤ j) (hij : i < j) :
    ∀ k : Nat, ((k : Int) < low ∨ high ≤ (k : Int)) →
      (partLoop data pivot i j high).2.getD k 0 = data.getD k 0 := by
  intro k hk
  rw [partLoop]
  split
  · rename_i hjh
    split
    · rename_i hlt
      rw [partLoop_frame _ pivot (i + 1) (j + 1) high low hlow (by omega)
        (by omega) (by omega) k hk]
      apply getD_swapAt_of_ne
      · intro he
        have : ((i + 1).toNat : Int) = i + 1 := by omega
        omega
      · intro he
        have : (j.toNat : Int) = j := by omega
        omega
    · exact partLoop_frame _ pivot i (j + 1) high low hlow hi (by omega)
        (by omega) k hk
  · rfl
termination_by (high - j).toNat

theorem partition_frame (data : List Int) (low high : Int)
    (hlow : 0 ≤ low) (hlh : low ≤ high) :
    ∀ k : Nat, ((k : Int) < low ∨ high < (k : Int)) →
      (partition data low high).2.getD k 0 = data.getD k 0 := by
  intro k hk
  have hfst_lt := partLoop_fst_lt data (getI data high) (low - 1) low high
    (by omega) hlh
  have hfst_ge := partLoop_fst_ge data (getI data high) (low - 1) low high
  simp only [partition, swapI]
  rw [getD_swapAt_of_ne]
  · exact partLoop_frame data (getI data high) (low - 1) low high low hlow
      (by omega) (by omega) (by omega) k (by omega)
  · intro he
    have h1 : (((partLoop data (getI data high) (low - 1) low high).1 + 1).toNat : Int)
        = (partLoop data (getI data high) (low - 1) low high).1 + 1 := by omega
    omega
  · intro he
    have h2 : (high.toNat : Int) = high := by omega
    omega

theorem quicksort_frame (data : List Int) (low high : Int) (hlow : 0 ≤ low) :
    ∀ k : Nat, ((k : Int) < low ∨ high < (k : Int)) →
      (quicksort data low high).getD k 0 = data.getD k 0 := by
  intro k hk
  rw [quicksort]
  split
  · rename_i hlh
    have hp_ge := partition_fst_ge data low high
    have hp_le := partition_fst_le data low high hlh
    rw [quicksort_frame _ ((partition data low high).1 + 1) high (by omega) k
      (by omega)]
    rw [quicksort_frame _ low ((partition data low high).1 - 1) hlow k
      (by omega)]
    exact partition_frame data low high hlow (by omega) k hk
  · rfl
termination_by (high - low).toNat
decreasing_by
  · have h2 := partition_fst_le data low high (by assumption)
    omega
  · have h1 := partition_fst_ge data low high
    omega

theorem partLoop_perm (data : List Int) (pivot : Int) (i j high : Int)
    (hi : -1 ≤ i) (hij : i < j) (hhl : high ≤ (data.length : Int)) :
    List.Perm (partLoop data pivot i j high).2 data := by
  rw [partLoop]
  split
  · rename_i hjh
    split
    · rename_i hlt
      have hswap : List.Perm (swapI data (i + 1) j) data := by
        apply swapAt_perm
        · omega
        · omega
      have hlen : high ≤ ((swapI data (i + 1) j).length : Int) := by
        simpa [swapI] using hhl
      exact (partLoop_perm _ pivot (i + 1) (j + 1) high (by omega) (by omega)
        hlen).trans hswap
    · exact partLoop_perm _ pivot i (j + 1) high hi (by omega) hhl
  · exact List.Perm.refl data
termination_by (high - j).toNat

theorem partition_perm (data : List Int) (low high : Int)
    (hlow : 0 ≤ low) (hlh : low < high) (hhl : high < (data.length : Int)) :
    List.Perm (partition data low high).2 data := by
  have hfst_lt := partLoop_fst_lt data (getI data high) (low - 1) low high
    (by omega) (by omega)
  have hfst_ge := partLoop_fst_ge data (getI data high) (low - 1) low high
  have hlen := partLoop_snd_length data (getI data high) (low - 1) low high
  simp only [partition]
  refine List.Perm.trans ?_
    (partLoop_perm data (getI data high) (low - 1) low high (by omega)
      (by omega) (by omega))
  apply swapAt_perm
  · omega
  · omega

theorem quicksort_perm (data : List Int) (low high : Int)
    (hlow : 0 ≤ low) (hhl : high < (data.length : Int)) :
    List.Perm (quicksort data low high) data := by
  rw [quicksort]
  split
  · rename_i hlh
    have hp_ge := partition_fst_ge data low high
    have hp_le := partition_fst_le data low high hlh
    have hlen1 := partition_snd_length data low high
    have hperm1 := partition_perm data low high hlow hlh hhl
    have hperm2 := quicksort_perm (partition data low high).2 low
      ((partition data low high).1 - 1) hlow (by omega)
    have hlen2 : (quicksort (partition data low high).2 low
        ((partition data low high).1 - 1)).length = data.length := by
      rw [hperm2.length_eq, hlen1]
    have hperm3 := quicksort_perm _ ((partition data low high).1 + 1) high
      (by omega) (by rw [hlen2]; omega)
    exact (hperm3.trans hperm2).trans hperm1
  · exact List.Perm.refl data
termination_by (high - low).toNat
decreasing_by
  · have h2 := partition_fst_le data low high (by assumption)
    omega
  · have h1 := partition_fst_ge data low high
    omega

@[simp] theorem quicksort_length (data : List Int) (low high : Int) :
    (quicksort data low high).length = data.length := by
  rw [quicksort]
  split
  · rename_i hlh
    have h2 := partition_fst_le data low high hlh
    have h1 := partition_fst_ge data low high
    rw [quicksort_length, quicksort_length, partition_snd_length]
  · rfl
termination_by (high - low).toNat
decreasing_by
  · have h2 := partition_fst_le data low high (by assumption)
    omega
  · have h1 := partition_fst_ge data low high
    omega

end QuickSort

namespace QuickSort

/-- Invariants of the scan loop: on exit, positions `[low, i]` hold
values strictly below the pivot and positions `(i, high)` hold values at
least the pivot. -/
theorem partLoop_spec (data : List Int) (pivot : Int) (i j high low : Int)
    (hlow : 0 ≤ low) (hli : low - 1 ≤ i) (hij : i < j) (hjh : j ≤ high)
    (hhl : high < (data.length : Int))
    (hA : ∀ k : Nat, low ≤ (k : Int) → (k : Int) ≤ i → data.getD k 0 < pivot)
    (hB : ∀ k : Nat, i < (k : Int) → (k : Int) < j → pivot ≤ data.getD k 0) :
    (∀ k : Nat, low ≤ (k : Int) → (k : Int) ≤ (partLoop data pivot i j high).1 →
      (partLoop data pivot i j high).2.getD k 0 < pivot) ∧
    (∀ k : Nat, (partLoop data pivot i j high).1 < (k : Int) →
      (k : Int) < high → pivot ≤ (partLoop data pivot i j high).2.getD k 0) := by
  rw [partLoop]
  split
  · rename_i hjh2
    split
    · rename_i hlt
      have hi1 : (0 : Int) ≤ i + 1 := by omega
      have hj0 : (0 : Int) ≤ j := by omega
      have hpa : (((i + 1).toNat : Int)) = i + 1 := by omega
      have hpb : ((j.toNat : Int)) = j := by omega
      have hpal : (i + 1).toNat < data.length := by omega
      have hpbl : j.toNat < data.length := by omega
      apply partLoop_spec (swapI data (i + 1) j) pivot (i + 1) (j + 1) high low
        hlow (by omega) (by omega) (by omega) (by simpa [swapI] using hhl)
      · -- region A after the swap
        intro k hk1 hk2
        rw [swapI, getD_swapAt data _ _ k hpal hpbl]
        split
        · rename_i hkb
          have hkj : (k : Int) = j := by omega
          have heq : j = i + 1 := by omega
          have heq2 : (i + 1).toNat = j.toNat := by omega
          rw [heq2]
          simpa [getI] using hlt
        · split
          · rename_i hkb hka
            simpa [getI] using hlt
          · rename_i hkb hka
            have hk3 : (k : Int) ≤ i := by
              rcases Nat.lt_or_ge k ((i + 1).toNat) with h | h
              · omega
              · exfalso
                have : (k : Int) = i + 1 := by omega
                exact hka (by omega)
            exact hA k hk1 hk3
      · -- region B after the swap
        intro k hk1 hk2
        rw [swapI, getD_swapAt data _ _ k hpal hpbl]
        split
        · rename_i hkb
          exact hB ((i + 1).toNat) (by omega) (by omega)
        · split
          · rename_i hkb hka
            exfalso
            omega
          · rename_i hkb hka
            have hkj : (k : Int) < j := by omega
            exact hB k (by omega) hkj
    · rename_i hge
      push_neg at hge
      apply partLoop_spec data pivot i (j + 1) high low hlow hli (by omega)
        (by omega) hhl hA
      intro k hk1 hk2
      by_cases hkj : (k : Int) = j
      · have : k = j.toNat := by omega
        rw [this]
        simpa [getI] using hge
      · exact hB k hk1 (by omega)
  · rename_i hjh2
    have hje : j = high := by omega
    constructor
    · intro k hk1 hk2
      exact hA k hk1 hk2
    · intro k hk1 hk2
      exact hB k hk1 (by omega)
termination_by (high - j).toNat

/-- Specification of `QuickSort::partition`: the returned index holds
the old pivot value `data[high]`; everything in `[low, p)` is strictly
below it and everything in `(p, high]` is at least it. -/
theorem partition_spec (data : List Int) (low high : Int)
    (hlow : 0 ≤ low) (hlh : low < high) (hhl : high < (data.length : Int)) :
    (partition data low high).2.getD (partition data low high).1.toNat 0
      = data.getD high.toNat 0 ∧
    (∀ k : Nat, low ≤ (k : Int) → (k : Int) < (partition data low high).1 →
      (partition data low high).2.getD k 0 <
        (partition data low high).2.getD (partition data low high).1.toNat 0) ∧
    (∀ k : Nat, (partition data low high).1 < (k : Int) → (k : Int) ≤ high →
      (partition data low high).2.getD (partition data low high).1.toNat 0 ≤
        (partition data low high).2.getD k 0) := by
  have hspec := partLoop_spec data (getI data high) (low - 1) low high low
    hlow (by omega) (by omega) (by omega) hhl
    (by intro k h1 h2; omega)
    (by intro k h1 h2; omega)
  have hfst_lt := partLoop_fst_lt data (getI data high) (low - 1) low high
    (by omega) (by omega)
  have hfst_ge := partLoop_fst_ge data (getI data high) (low - 1) low high
  have hlen := partLoop_snd_length data (getI data high) (low - 1) low high
  set r := partLoop data (getI data high) (low - 1) low high with hr
  have hframe_high : r.2.getD high.toNat 0 = data.getD high.toNat 0 := by
    apply partLoop_frame data (getI data high) (low - 1) low high low hlow
      (by omega) (by omega) (by omega)
    right
    omega
  have hpivot : getI data high = data.getD high.toNat 0 := rfl
  have hp1 : ((r.1 + 1).toNat : Int) = r.1 + 1 := by omega
  have hpal : (r.1 + 1).toNat < r.2.length := by omega
  have hpbl : high.toNat < r.2.length := by omega
  have hout : (partition data low high).2 = swapAt r.2 (r.1 + 1).toNat high.toNat := by
    simp only [partition, swapI, ← hr]
  have houtp : (partition data low high).1 = r.1 + 1 := by
    simp only [partition, ← hr]
  have hptop : (partition data low high).1.toNat = (r.1 + 1).toNat := by
    rw [houtp]
  -- value at the pivot position
  have hval : (partition data low high).2.getD
      (partition data low high).1.toNat 0 = data.getD high.toNat 0 := by
    rw [hout, hptop, getD_swapAt r.2 _ _ _ hpal hpbl]
    by_cases hph : (r.1 + 1).toNat = high.toNat
    · rw [if_pos hph, hph, hframe_high]
    · rw [if_neg hph, if_pos rfl, hframe_high]
  refine ⟨hval, ?_, ?_⟩
  · intro k hk1 hk2
    rw [houtp] at hk2
    rw [hval, hout, getD_swapAt_of_ne _ _ _ _ (by omega) (by omega),
      ← hpivot]
    exact hspec.1 k hk1 (by omega)
  · intro k hk1 hk2
    rw [houtp] at hk1
    rw [hval, hout]
    by_cases hkh : k = high.toNat
    · rw [getD_swapAt r.2 _ _ _ hpal hpbl, if_pos hkh, ← hpivot]
      exact hspec.2 ((r.1 + 1).toNat) (by omega) (by omega)
    · rw [getD_swapAt_of_ne _ _ _ _ (by omega) (by omega), ← hpivot]
      exact hspec.2 k (by omega) (by omega)

end QuickSort

namespace QuickSort

/-- The active window `[low, high]` of `quicksort` is a permutation of
the input window. -/
theorem quicksort_seg_perm (data : List Int) (low high : Int)
    (hlow : 0 ≤ low) (hhl : high < (data.length : Int)) :
    List.Perm
      (((quicksort data low high).drop low.toNat).take
        ((high + 1).toNat - low.toNat))
      ((data.drop low.toNat).take ((high + 1).toNat - low.toNat)) := by
  apply seg_perm_of_perm_frame _ _ low.toNat ((high + 1).toNat)
    (quicksort_length data low high) (quicksort_perm data low high hlow hhl)
  · intro k hk
    exact quicksort_frame data low high hlow k (Or.inl (by omega))
  · intro k hk
    exact quicksort_frame data low high hlow k (Or.inr (by omega))

/-- Adjacent positions inside the sorted window are ordered. -/
theorem quicksort_adj (data : List Int) (low high : Int)
    (hlow : 0 ≤ low) (hhl : high < (data.length : Int)) :
    ∀ k : Nat, low ≤ (k : Int) → (k : Int) + 1 ≤ high →
      (quicksort data low high).getD k 0 ≤
        (quicksort data low high).getD (k + 1) 0 := by
  intro k hk1 hk2
  have hlh : low < high := by omega
  rw [quicksort, if_pos hlh]
  have hp_ge := partition_fst_ge data low high
  have hp_le := partition_fst_le data low high hlh
  have hspec := partition_spec data low high hlow hlh hhl
  set p := (partition data low high).1 with hp
  set d1 := (partition data low high).2 with hd1
  have hlen1 : d1.length = data.length := partition_snd_length data low high
  set L := quicksort d1 low (p - 1) with hL
  have hlenL : L.length = data.length := by
    rw [hL, quicksort_length, hlen1]
  set out := quicksort L (p + 1) high with hout
  have hlenout : out.length = data.length := by
    rw [hout, quicksort_length, hlenL]
  by_cases hcase1 : (k : Int) + 1 < p
  · -- both positions lie strictly left of the pivot
    have hf1 : out.getD k 0 = L.getD k 0 := by
      rw [hout]
      exact quicksort_frame L (p + 1) high (by omega) k (Or.inl (by omega))
    have hf2 : out.getD (k + 1) 0 = L.getD (k + 1) 0 := by
      rw [hout]
      exact quicksort_frame L (p + 1) high (by omega) (k + 1) (Or.inl (by omega))
    rw [hf1, hf2, hL]
    exact quicksort_adj d1 low (p - 1) hlow (by rw [hlen1]; omega) k hk1
      (by omega)
  · by_cases hcase2 : (k : Int) + 1 = p
    · -- the right position is the pivot itself
      have hf1 : out.getD k 0 = L.getD k 0 := by
        rw [hout]
        exact quicksort_frame L (p + 1) high (by omega) k (Or.inl (by omega))
      have hf2 : out.getD (k + 1) 0 = L.getD (k + 1) 0 := by
        rw [hout]
        exact quicksort_frame L (p + 1) high (by omega) (k + 1)
          (Or.inl (by omega))
      have hfp : L.getD (k + 1) 0 = d1.getD (k + 1) 0 := by
        rw [hL]
        exact quicksort_frame d1 low (p - 1) hlow (k + 1) (Or.inr (by omega))
      have hk1p : k + 1 = p.toNat := by omega
      have hseg := quicksort_seg_perm d1 low (p - 1) hlow (by rw [hlen1]; omega)
      have hb_eq : (p - 1 + 1).toNat = p.toNat := by omega
      rw [hb_eq, ← hL] at hseg
      have hmem : L.getD k 0 ∈ (L.drop low.toNat).take (p.toNat - low.toNat) :=
        getD_mem_window L low.toNat p.toNat k (by omega) (by omega) (by omega)
      have hmem2 : L.getD k 0 ∈ (d1.drop low.toNat).take (p.toNat - low.toNat) :=
        hseg.mem_iff.1 hmem
      obtain ⟨k0, hk0a, hk0b, hk0e⟩ :=
        mem_window_getD d1 low.toNat p.toNat _ (by omega) hmem2
      have hlt := hspec.2.1 k0 (by omega) (by omega)
      rw [hf1, hf2, hfp, hk1p, ← hk0e]
      exact le_of_lt hlt
    · by_cases hcase3 : (k : Int) = p
      · -- the left position is the pivot itself
        have hf1 : out.getD k 0 = L.getD k 0 := by
          rw [hout]
          exact quicksort_frame L (p + 1) high (by omega) k (Or.inl (by omega))
        have hfp : L.getD k 0 = d1.getD k 0 := by
          rw [hL]
          exact quicksort_frame d1 low (p - 1) hlow k (Or.inr (by omega))
        have hkp : k = p.toNat := by omega
        have hsegR := quicksort_seg_perm L (p + 1) high (by omega)
          (by rw [hlenL]; omega)
        rw [← hout] at hsegR
        have hmem : out.getD (k + 1) 0 ∈
            (out.drop (p + 1).toNat).take ((high + 1).toNat - (p + 1).toNat) :=
          getD_mem_window out (p + 1).toNat (high + 1).toNat (k + 1)
            (by omega) (by omega) (by omega)
        have hmem2 : out.getD (k + 1) 0 ∈
            (L.drop (p + 1).toNat).take ((high + 1).toNat - (p + 1).toNat) :=
          hsegR.mem_iff.1 hmem
        obtain ⟨k0, hk0a, hk0b, hk0e⟩ :=
          mem_window_getD L (p + 1).toNat (high + 1).toNat _ (by omega) hmem2
        have hfk0 : L.getD k0 0 = d1.getD k0 0 := by
          rw [hL]
          exact quicksort_frame d1 low (p - 1) hlow k0 (Or.inr (by omega))
        have hge := hspec.2.2 k0 (by omega) (by omega)
        rw [hf1, hfp, ← hk0e, hfk0, hkp]
        exact hge
      · -- both positions lie strictly right of the pivot
        have hpk : p < (k : Int) := by omega
        exact quicksort_adj L (p + 1) high (by omega) (by rw [hlenL]; omega) k
          (by omega) hk2
termination_by (high - low).toNat
decreasing_by
  · omega
  · omega

end QuickSort

namespace QuickSort

theorem quicksort_gap (data : List Int) (low high : Int)
    (hlow : 0 ≤ low) (hhl : high < (data.length : Int)) :
    ∀ d k : Nat, low ≤ (k : Int) → (k : Int) + (d : Int) + 1 ≤ high →
      (quicksort data low high).getD k 0 ≤
        (quicksort data low high).getD (k + d + 1) 0 := by
  intro d
  induction d with
  | zero =>
    intro k h1 h2
    simpa using quicksort_adj data low high hlow hhl k h1 (by omega)
  | succ n ih =>
    intro k h1 h2
    have h3 := quicksort_adj data low high hlow hhl (k + n + 1) (by push_cast; omega)
      (by push_cast; omega)
    have heq : k + n + 1 + 1 = k + (n + 1) + 1 := by omega
    rw [heq] at h3
    exact le_trans (ih k h1 (by push_cast at h2 ⊢; omega)) h3

theorem quicksort_pairs (data : List Int) (low high : Int)
    (hlow : 0 ≤ low) (hhl : high < (data.length : Int)) :
    ∀ k q : Nat, low ≤ (k : Int) → k < q → (q : Int) ≤ high →
      (quicksort data low high).getD k 0 ≤ (quicksort data low high).getD q 0 := by
  intro k q h1 h2 h3
  have hd : q = k + (q - k - 1) + 1 := by omega
  rw [hd]
  apply quicksort_gap data low high hlow hhl (q - k - 1) k h1
  omega

/-- `QuickSort::sort` permutes its input. -/
theorem qsort_perm (data : List Int) : List.Perm (sort data) data := by
  unfold sort
  exact quicksort_perm data 0 ((data.length : Int) - 1) (by omega) (by omega)

@[simp] theorem qsort_length (data : List Int) :
    (sort data).length = data.length :=
  (qsort_perm data).length_eq

/-- `QuickSort::sort` sorts: any two positions are ordered. -/
theorem qsort_pairs (data : List Int) :
    ∀ p q : Nat, p < q → q < data.length →
      (sort data).getD p 0 ≤ (sort data).getD q 0 := by
  intro p q hpq hq
  unfold sort
  exact quicksort_pairs data 0 ((data.length : Int) - 1) (by omega) (by omega)
    p q (by omega) hpq (by omega)

end QuickSort

/-! ## Sortedness, and the two algorithms agree -/

theorem sorted_of_pairs (l : List Int)
    (h : ∀ p q : Nat, p < q → q < l.length → l.getD p 0 ≤ l.getD q 0) :
    l.Sorted (· ≤ ·) := by
  rw [List.Sorted, List.pairwise_iff_getElem]
  intro a b ha hb hab
  have h2 := h a b hab hb
  rwa [getD_eq_getElem_int _ _ ha, getD_eq_getElem_int _ _ hb] at h2

theorem bubbleSort_sorted (data : List Int) :
    (BubbleSort.sort data).Sorted (· ≤ ·) := by
  apply sorted_of_pairs
  intro p q hpq hq
  exact BubbleSort.bsort_pairs data p q hpq (by simpa using hq)

theorem quickSort_sorted (data : List Int) :
    (QuickSort.sort data).Sorted (· ≤ ·) := by
  apply sorted_of_pairs
  intro p q hpq hq
  exact QuickSort.qsort_pairs data p q hpq (by simpa using hq)

/-- Both algorithms compute the same (unique) sorted permutation. -/
theorem bubble_eq_quick (data : List Int) :
    BubbleSort.sort data = QuickSort.sort data :=
  List.eq_of_perm_of_sorted
    ((BubbleSort.bsort_perm data).trans (QuickSort.qsort_perm data).symm)
    (bubbleSort_sorted data) (quickSort_sorted data)

/-! ## The Runner (`main`, `src/main.cpp` lines 260–296) -/

/-- Observable outcome of one run of `main` after the input has been
read: the contents of the "Sorted Data" line if one is printed, whether
"Invalid choice." is printed, and the process exit status. -/
structure RunOutput where
  sortedData : Option (List Int)
  invalidMsg : Bool
  exitCode : Nat
deriving DecidableEq, Repr

/-- Dispatch of `main` (`src/main.cpp` lines 276–290): selector `1`
runs `BubbleSort().sort`, selector `2` runs `QuickSort().sort`, anything
else prints "Invalid choice." and returns 1 before any sort or any
"Sorted Data" output. -/
def runMain (data : List Int) (choice : Int) : RunOutput :=
  if choice = 1 then ⟨some (BubbleSort.sort data), false, 0⟩
  else if choice = 2 then ⟨some (QuickSort.sort data), false, 0⟩
  else ⟨none, true, 1⟩

/-! ## Input parsing (`main`, `src/main.cpp` lines 261–269)

`std::getline` reads one line; `while (iss >> number)` repeatedly skips
whitespace and extracts an optional sign followed by one or more decimal
digits, stopping at the first position where no integer can be
extracted.  `number` is a C++ `int` (32 bits on every supported
platform): when the parsed literal's value does not fit, `operator>>`
sets `failbit`, so the extraction fails and the loop stops there. -/

/-- The six whitespace characters of `std::isspace` in the default
locale. -/
def isSpaceChar (c : Char) : Bool :=
  c = ' ' || c = '\t' || c = '\n' || c = '\r' ||
    c = Char.ofNat 11 || c = Char.ofNat 12

def isDigitChar (c : Char) : Bool :=
  '0' ≤ c && c ≤ '9'

def digitVal (c : Char) : Nat :=
  c.toNat - '0'.toNat

/-- Consume a maximal run of decimal digits, accumulating their value. -/
def readDigits : List Char → Nat → Nat × List Char
  | c :: rest, acc =>
    if isDigitChar c then readDigits rest (acc * 10 + digitVal c)
    else (acc, c :: rest)
  | [], acc => (acc, [])

/-- The value range of the 32-bit C++ `int` the runner extracts into. -/
def inIntRange (v : Int) : Bool :=
  -2147483648 ≤ v && v ≤ 2147483647

/-- One extraction `iss >> number`: skip whitespace; an optional `-` or
`+` must be followed by a digit; read the maximal digit run; fail
(`failbit`) when the signed value does not fit in `int`.  Returns the
value and the unconsumed remainder, or `none` on failure. -/
def extractInt (cs : List Char) : Option (Int × List Char) :=
  match cs.dropWhile isSpaceChar with
  | [] => none
  | c :: rest =>
    if c = '-' then
      match rest with
      | d :: _ =>
        if isDigitChar d then
          let r := readDigits rest 0
          if inIntRange (-(r.1 : Int)) then some (-(r.1 : Int), r.2) else none
        else none
      | [] => none
    else if c = '+' then
      match rest with
      | d :: _ =>
        if isDigitChar d then
          let r := readDigits rest 0
          if inIntRange (r.1 : Int) then some ((r.1 : Int), r.2) else none
        else none
      | [] => none
    else if isDigitChar c then
      let r := readDigits (c :: rest) 0
      if inIntRange (r.1 : Int) then some ((r.1 : Int), r.2) else none
    else none

/-- The extraction loop `while (iss >> number) data.push_back(number);`.
Structural recursion on a fuel bound; every successful extraction
consumes at least one character, so fuel `cs.length + 1` is exact. -/
def parseLoopF : Nat → List Char → List Int
  | 0, _ => []
  | fuel + 1, cs =>
    match extractInt cs with
    | some vr => vr.1 :: parseLoopF fuel vr.2
    | none => []

/-- The sequence of integers `main` parses from the input line. -/
def parseInts (s : String) : List Int :=
  parseLoopF (s.toList.length + 1) s.toList

/-! ### The token-stream reading of the parse (the specified view) -/

/-- Whitespace-separated tokens of the line, via repeated
`dropWhile`/`takeWhile` (fuel as above). -/
def tokensF : Nat → List Char → List (List Char)
  | 0, _ => []
  | fuel + 1, cs =>
    match cs.dropWhile isSpaceChar with
    | [] => []
    | c :: rest =>
      (c :: rest).takeWhile (fun x => !isSpaceChar x) ::
        tokensF fuel ((c :: rest).dropWhile (fun x => !isSpaceChar x))

def tokens (cs : List Char) : List (List Char) :=
  tokensF (cs.length + 1) cs

/-- A token that is syntactically an integer literal: an optional sign
followed by one or more digits, and nothing else. -/
def isIntLit (t : List Char) : Bool :=
  match t with
  | [] => false
  | c :: rest =>
    if c = '-' || c = '+' then !rest.isEmpty && rest.all isDigitChar
    else isDigitChar c && rest.all isDigitChar

def digitsVal (ds : List Char) : Nat :=
  ds.foldl (fun a c => a * 10 + digitVal c) 0

def tokenVal (t : List Char) : Int :=
  match t with
  | [] => 0
  | c :: rest =>
    if c = '-' then -(digitsVal rest : Int)
    else if c = '+' then (digitsVal rest : Int)
    else (digitsVal t : Int)

/-- A token that is a valid `int` for the stream in the runner: an
integer literal whose value is representable in the 32-bit `int` being
extracted into (an out-of-range literal is not a valid integer for this
stream: extraction fails on it). -/
def isIntToken (t : List Char) : Bool :=
  isIntLit t && inIntRange (tokenVal t)

/-- The parse described by the specification: the values of the maximal
prefix of the token stream consisting of valid integer tokens; all
later tokens are discarded. -/
def tokenParse (s : String) : List Int :=
  ((tokens s.toList).takeWhile isIntToken).map tokenVal

/-- Every token either is a valid integer literal in full, or no
integer can be extracted from its start.  (Rules out tokens such as
`12abc` or `-5x`, on which stream extraction and the token-stream view
disagree.) -/
def goodTokens (cs : List Char) : Bool :=
  (tokens cs).all (fun t => !(extractInt t).isSome || isIntToken t)

/-! ## Bounds-checked interpreter (for the memory-safety claims)

The same loops, but every `data[...]` access is checked: an index that
is negative or not below `data.size()` makes the run fail with `none`.
Success certifies that the unchecked embedding never read or wrote out
of range. -/

/-- Checked read with an `int` index. -/
def getIE (data : List Int) (j : Int) : Option Int :=
  if j < 0 then none else data[j.toNat]?

/-- Checked `std::swap(data[a], data[b])` with `Nat` indices. -/
def swapE (data : List Int) (a b : Nat) : Option (List Int) :=
  match data[a]?, data[b]? with
  | some x, some y => some ((data.set a y).set b x)
  | _, _ => none

/-- Checked `std::swap` with `int` indices. -/
def swapIE (data : List Int) (a b : Int) : Option (List Int) :=
  if a < 0 ∨ b < 0 then none else swapE data a.toNat b.toNat

theorem swapE_eq (data : List Int) (a b : Nat)
    (ha : a < data.length) (hb : b < data.length) :
    swapE data a b = some (swapAt data a b) := by
  rw [swapE, List.getElem?_eq_getElem ha, List.getElem?_eq_getElem hb]
  unfold swapAt
  rw [getD_eq_getElem_int _ _ ha, getD_eq_getElem_int _ _ hb]

namespace BubbleSort

/-- Checked inner loop of `BubbleSort::sort`. -/
def innerLoopE (data : List Int) (j bound : Nat) : Option (List Int) :=
  if j < bound then
    match data[j]?, data[j + 1]? with
    | some x, some y =>
      innerLoopE (if x > y then swapAt data j (j + 1) else data) (j + 1) bound
    | _, _ => none
  else some data
termination_by bound - j

theorem innerLoopE_length (data : List Int) (j bound : Nat) :
    ∀ d2, innerLoopE data j bound = some d2 → d2.length = data.length := by
  intro d2 h
  rw [innerLoopE] at h
  split at h
  · split at h
    · rename_i x y hx hy
      have h2 := innerLoopE_length _ (j + 1) bound d2 h
      rw [h2]
      split <;> simp
    · exact absurd h (by simp)
  · cases h
    rfl
termination_by bound - j

theorem innerLoopE_eq (data : List Int) (j bound : Nat)
    (hb : bound < data.length) :
    innerLoopE data j bound = some (innerLoop data j bound) := by
  rw [innerLoopE, innerLoop]
  split
  · rename_i hj
    have hjl : j < data.length := by omega
    have hj1l : j + 1 < data.length := by omega
    rw [List.getElem?_eq_getElem hjl, List.getElem?_eq_getElem hj1l]
    show innerLoopE (if data[j] > data[j + 1] then
      swapAt data j (j + 1) else data) (j + 1) bound = _
    rw [getD_eq_getElem_int _ _ hjl, getD_eq_getElem_int _ _ hj1l]
    apply innerLoopE_eq
    split <;> simpa using hb
  · rfl
termination_by bound - j

/-- Checked outer loop of `BubbleSort::sort`. -/
def outerLoopE (data : List Int) (i : Nat) : Option (List Int) :=
  if i < data.length then
    match h : innerLoopE data 0 (data.length - i - 1) with
    | some d2 => outerLoopE d2 (i + 1)
    | none => none
  else some data
termination_by data.length - i
decreasing_by
  rw [innerLoopE_length data 0 (data.length - i - 1) d2 h]
  omega

/-- Checked `BubbleSort::sort`. -/
def sortE (data : List Int) : Option (List Int) :=
  outerLoopE data 0

theorem outerLoopE_eq (data : List Int) (i : Nat) :
    outerLoopE data i = some (outerLoop data i) := by
  rw [outerLoopE, outerLoop]
  split
  · rename_i hi
    have hb : data.length - i - 1 < data.length := by omega
    have he := innerLoopE_eq data 0 (data.length - i - 1) hb
    split
    · rename_i d2 h
      rw [he] at h
      cases h
      exact outerLoopE_eq _ (i + 1)
    · rename_i h
      rw [he] at h
      cases h
  · rfl
termination_by data.length - i
decreasing_by
  rw [innerLoopE_length data 0 (data.length - i - 1) _ (by assumption)]
  omega

/-- Every access of `BubbleSort::sort` is in bounds, and the checked
run computes the sort. -/
theorem sortE_eq (data : List Int) : sortE data = some (sort data) :=
  outerLoopE_eq data 0

end BubbleSort

namespace QuickSort

/-- Checked scan loop of `QuickSort::partition`. -/
def partLoopE (data : List Int) (pivot : Int) (i j high : Int) :
    Option (Int × List Int) :=
  if j < high then
    match getIE data j with
    | none => none
    | some x =>
      if x < pivot then
        match swapIE data (i + 1) j with
        | none => none
        | some d2 => partLoopE d2 pivot (i + 1) (j + 1) high
      else partLoopE data pivot i (j + 1) high
  else some (i, data)
termination_by (high - j).toNat

/-- Checked `QuickSort::partition`. -/
def partitionE (data : List Int) (low high : Int) : Option (Int × List Int) :=
  match getIE data high with
  | none => none
  | some pivot =>
    match partLoopE data pivot (low - 1) low high with
    | none => none
    | some r =>
      match swapIE r.2 (r.1 + 1) high with
      | none => none
      | some d2 => some (r.1 + 1, d2)

/-- A successful checked scan agrees with the unchecked one. -/
theorem partLoopE_sound (data : List Int) (pivot : Int) (i j high : Int) :
    ∀ r, partLoopE data pivot i j high = some r →
      r = partLoop data pivot i j high := by
  intro r h
  rw [partLoopE] at h
  rw [partLoop]
  split
  · rename_i hjh
    rw [if_pos hjh] at h
    split at h
    · exact absurd h (by simp)
    · rename_i x hx
      have hxval : x = getI data j := by
        rw [getIE] at hx
        split at hx
        · cases hx
        · rename_i hj0
          rw [getI, getD_eq_getElem_int _ _ (by
              by_contra hc
              rw [List.getElem?_eq_none (by omega)] at hx
              cases hx)]
          rw [List.getElem?_eq_getElem] at hx
          exact (Option.some_inj.1 hx).symm
      rw [← hxval]
      split
      · rename_i hlt
        rw [if_pos hlt] at h
        split at h
        · exact absurd h (by simp)
        · rename_i d2 hd2
          have hd2val : d2 = swapI data (i + 1) j := by
            rw [swapIE] at hd2
            split at hd2
            · cases hd2
            · rename_i hab
              rw [swapE] at hd2
              split at hd2
              · rename_i u v hu hv
                cases hd2
                rw [swapI]
                unfold swapAt
                have hua : (i + 1).toNat < data.length := by
                  by_contra hc
                  rw [List.getElem?_eq_none (by omega)] at hu
                  cases hu
                have hvb : j.toNat < data.length := by
                  by_contra hc
                  rw [List.getElem?_eq_none (by omega)] at hv
                  cases hv
                rw [List.getElem?_eq_getElem hua] at hu
                rw [List.getElem?_eq_getElem hvb] at hv
                rw [getD_eq_getElem_int _ _ hua, getD_eq_getElem_int _ _ hvb,
                  ← Option.some_inj.1 hu, ← Option.some_inj.1 hv]
              · cases hd2
          rw [← hd2val] at *
          exact partLoopE_sound d2 pivot (i + 1) (j + 1) high r h
      · rename_i hge
        rw [if_neg hge] at h
        exact partLoopE_sound data pivot i (j + 1) high r h
  · rename_i hjh
    rw [if_neg hjh] at h
    exact (Option.some_inj.1 h).symm
termination_by (high - j).toNat

theorem partitionE_sound (data : List Int) (low high : Int) :
    ∀ r, partitionE data low high = some r → r = partition data low high := by
  intro r h
  rw [partitionE] at h
  split at h
  · cases h
  · rename_i pivot hpiv
    have hpval : pivot = getI data high := by
      rw [getIE] at hpiv
      split at hpiv
      · cases hpiv
      · rename_i hh0
        rw [getI, getD_eq_getElem_int _ _ (by
            by_contra hc
            rw [List.getElem?_eq_none (by omega)] at hpiv
            cases hpiv)]
        rw [List.getElem?_eq_getElem] at hpiv
        exact (Option.some_inj.1 hpiv).symm
    split at h
    · cases h
    · rename_i r0 hr0
      have hr0val := partLoopE_sound data pivot (low - 1) low high r0 hr0
      split at h
      · cases h
      · rename_i d2 hd2
        have hd2val : d2 = swapI r0.2 (r0.1 + 1) high := by
          rw [swapIE] at hd2
          split at hd2
          · cases hd2
          · rename_i hab
            rw [swapE] at hd2
            split at hd2
            · rename_i u v hu hv
              cases hd2
              rw [swapI]
              unfold swapAt
              have hua : (r0.1 + 1).toNat < r0.2.length := by
                by_contra hc
                rw [List.getElem?_eq_none (by omega)] at hu
                cases hu
              have hvb : high.toNat < r0.2.length := by
                by_contra hc
                rw [List.getElem?_eq_none (by omega)] at hv
                cases hv
              rw [List.getElem?_eq_getElem hua] at hu
              rw [List.getElem?_eq_getElem hvb] at hv
              rw [getD_eq_getElem_int _ _ hua, getD_eq_getElem_int _ _ hvb,
                ← Option.some_inj.1 hu, ← Option.some_inj.1 hv]
            · cases hd2
        cases h
        simp only [partition]
        rw [hd2val, hr0val, hpval]

/-- Checked `QuickSort::quicksort`. -/
def quicksortE (data : List Int) (low high : Int) : Option (List Int) :=
  if low < high then
    match h : partitionE data low high with
    | none => none
    | some r =>
      match quicksortE r.2 low (r.1 - 1) with
      | none => none
      | some d2 =>
        match quicksortE d2 (r.1 + 1) high with
        | none => none
        | some d3 => some d3
  else some data
termination_by (high - low).toNat
decreasing_by
  · have hr := partitionE_sound data low high r h
    have h1 := partition_fst_le data low high (by assumption)
    have h2 := partition_fst_ge data low high
    rw [hr]
    omega
  · have hr := partitionE_sound data low high r h
    have h1 := partition_fst_le data low high (by assumption)
    have h2 := partition_fst_ge data low high
    rw [hr]
    omega

/-- Checked `QuickSort::sort`. -/
def sortE (data : List Int) : Option (List Int) :=
  quicksortE data 0 ((data.length : Int) - 1)

/-- When all the scanned positions are in range, the checked scan
succeeds (so every access of the scan loop is in bounds). -/
theorem partLoopE_eq (data : List Int) (pivot : Int) (i j high : Int)
    (hi : -1 ≤ i) (hij : i < j) (hhl : high ≤ (data.length : Int)) :
    partLoopE data pivot i j high = some (partLoop data pivot i j high) := by
  rw [partLoopE, partLoop]
  split
  · rename_i hjh
    have hj0 : (0 : Int) ≤ j := by omega
    have hjl : j.toNat < data.length := by omega
    have hgx : getIE data j = some (getI data j) := by
      rw [getIE, if_neg (by omega), List.getElem?_eq_getElem hjl, getI,
        getD_eq_getElem_int _ _ hjl]
    rw [hgx]
    show (if getI data j < pivot then _ else _) = _
    split
    · rename_i hlt
      have hia : (i + 1).toNat < data.length := by omega
      have hsw : swapIE data (i + 1) j = some (swapI data (i + 1) j) := by
        rw [swapIE, if_neg (by omega), swapE_eq data _ _ hia hjl, swapI]
      rw [hsw]
      show partLoopE (swapI data (i + 1) j) pivot (i + 1) (j + 1) high = _
      exact partLoopE_eq _ pivot (i + 1) (j + 1) high (by omega) (by omega)
        (by simpa [swapI] using hhl)
    · exact partLoopE_eq data pivot i (j + 1) high hi (by omega) hhl
  · rfl
termination_by (high - j).toNat

/-- When the bounds are valid, the checked partition succeeds. -/
theorem partitionE_eq (data : List Int) (low high : Int)
    (hlow : 0 ≤ low) (hlh : low < high) (hhl : high < (data.length : Int)) :
    partitionE data low high = some (partition data low high) := by
  have hhn : high.toNat < data.length := by omega
  have hgp : getIE data high = some (getI data high) := by
    rw [getIE, if_neg (by omega), List.getElem?_eq_getElem hhn, getI,
      getD_eq_getElem_int _ _ hhn]
  have hloop := partLoopE_eq data (getI data high) (low - 1) low high
    (by omega) (by omega) (by omega)
  have hfst_lt := partLoop_fst_lt data (getI data high) (low - 1) low high
    (by omega) (by omega)
  have hfst_ge := partLoop_fst_ge data (getI data high) (low - 1) low high
  have hlen := partLoop_snd_length data (getI data high) (low - 1) low high
  set r := partLoop data (getI data high) (low - 1) low high with hr
  have hswl : (r.1 + 1).toNat < r.2.length := by omega
  have hshl : high.toNat < r.2.length := by omega
  have hsw : swapIE r.2 (r.1 + 1) high = some (swapI r.2 (r.1 + 1) high) := by
    rw [swapIE, if_neg (by omega), swapE_eq _ _ _ hswl hshl, swapI]
  rw [partitionE, hgp]
  show (match partLoopE data (getI data high) (low - 1) low high with
    | none => none
    | some r0 =>
      match swapIE r0.2 (r0.1 + 1) high with
      | none => none
      | some d2 => some (r0.1 + 1, d2)) = _
  rw [hloop]
  show (match swapIE r.2 (r.1 + 1) high with
    | none => none
    | some d2 => some (r.1 + 1, d2)) = _
  rw [hsw]
  simp only [partition, ← hr]

/-- When the bounds are valid, the checked recursion succeeds: every
access of `QuickSort::quicksort` is in bounds. -/
theorem quicksortE_eq (data : List Int) (low high : Int)
    (hlow : 0 ≤ low) (hhl : high < (data.length : Int)) :
    quicksortE data low high = some (quicksort data low high) := by
  rw [quicksortE, quicksort]
  split
  · rename_i hlh
    have hpart := partitionE_eq data low high hlow hlh hhl
    have hp_ge := partition_fst_ge data low high
    have hp_le := partition_fst_le data low high hlh
    have hlen1 := partition_snd_length data low high
    split
    · rename_i h
      rw [hpart] at h
      cases h
    · rename_i r h
      rw [hpart] at h
      have hrval : r = partition data low high := Option.some_inj.1 h.symm
      have hq1 := quicksortE_eq r.2 low (r.1 - 1)
        hlow (by rw [hrval, hlen1]; omega)
      rw [hq1]
      show (match quicksortE (quicksort r.2 low (r.1 - 1)) (r.1 + 1) high with
        | none => none
        | some d3 => some d3) = _
      have hq2 := quicksortE_eq (quicksort r.2 low (r.1 - 1)) (r.1 + 1) high
        (by rw [hrval]; omega)
        (by rw [quicksort_length, hrval, hlen1]; omega)
      rw [hq2, hrval]
  · rfl
termination_by (high - low).toNat
decreasing_by
  · have h1 := partition_fst_le data low high (by assumption)
    have h2 := partition_fst_ge data low high
    rw [hrval]
    omega
  · have h1 := partition_fst_le data low high (by assumption)
    have h2 := partition_fst_ge data low high
    rw [hrval]
    omega

/-- Every access of `QuickSort::sort` is in bounds (including the empty
sequence, where `high` wraps to `-1` and the guard fails before any
access). -/
theorem qsortE_eq (data : List Int) : sortE data = some (sort data) :=
  quicksortE_eq data 0 ((data.length : Int) - 1) (by omega) (by omega)

end QuickSort

/-! ## Reference renderings of the specified algorithms (for the
refinement claims).  These definitions follow the wording of the
specification; the theorems `bubble_sort_eq_spec` and
`partition_eq_spec` show the embedded code computes exactly them. -/

/-- One bubble pass as the specification words it: scan adjacent pairs
`(j, j+1)` for `j` in `[0, bound)`, swapping exactly when the left
element is strictly greater than the right. -/
def specBubblePass (d : List Int) (bound : Nat) : List Int :=
  (List.range bound).foldl
    (fun d j => if d.getD j 0 > d.getD (j + 1) 0 then swapAt d j (j + 1) else d)
    d

/-- The specified comparison sort: exactly `n` passes, unconditionally;
pass `i` scans only the prefix `[0, n − i − 1)`. -/
def specBubbleSort (data : List Int) : List Int :=
  (List.range data.length).foldl
    (fun d i => specBubblePass d (data.length - i - 1)) data

theorem innerLoop_eq_foldl (data : List Int) (j bound : Nat) :
    BubbleSort.innerLoop data j bound =
      (List.range' j (bound - j)).foldl
        (fun d k => if d.getD k 0 > d.getD (k + 1) 0 then swapAt d k (k + 1) else d)
        data := by
  rw [BubbleSort.innerLoop]
  split
  · rename_i hj
    have hm : bound - j = (bound - (j + 1)) + 1 := by omega
    rw [hm, List.range'_succ]
    simp only [List.foldl_cons]
    exact innerLoop_eq_foldl _ (j + 1) bound
  · rename_i hj
    have hm : bound - j = 0 := by omega
    rw [hm]
    rfl
termination_by bound - j

theorem specBubblePass_eq (data : List Int) (bound : Nat) :
    specBubblePass data bound = BubbleSort.innerLoop data 0 bound := by
  rw [specBubblePass, innerLoop_eq_foldl, List.range_eq_range', Nat.sub_zero]

@[simp] theorem specBubblePass_length (data : List Int) (bound : Nat) :
    (specBubblePass data bound).length = data.length := by
  rw [specBubblePass_eq, BubbleSort.innerLoop_length]

theorem outerLoop_eq_foldl (data : List Int) (i n : Nat) (hn : n = data.length) :
    BubbleSort.outerLoop data i =
      (List.range' i (n - i)).foldl (fun d k => specBubblePass d (n - k - 1))
        data := by
  rw [BubbleSort.outerLoop]
  split
  · rename_i hi
    have hm : n - i = (n - (i + 1)) + 1 := by omega
    rw [hm, List.range'_succ]
    simp only [List.foldl_cons]
    have hstep : BubbleSort.innerLoop data 0 (data.length - i - 1) =
        specBubblePass data (n - i - 1) := by
      rw [specBubblePass_eq, hn]
    rw [hstep]
    exact outerLoop_eq_foldl _ (i + 1) n
      (by rw [hn, specBubblePass_length])
  · rename_i hi
    have hm : n - i = 0 := by omega
    rw [hm]
    rfl
termination_by n - i
decreasing_by omega

/-- `BubbleSort::sort` is exactly the specified pass structure: `n`
unconditional passes over shrinking prefixes, swapping on strict
inequality only. -/
theorem bubble_sort_eq_spec (data : List Int) :
    BubbleSort.sort data = specBubbleSort data := by
  rw [BubbleSort.sort, specBubbleSort, List.range_eq_range']
  exact outerLoop_eq_foldl data 0 data.length rfl

/-- The partition scan as the specification words it: for each offset
`t` with `low + t` in `[low, high)`, if the element there is strictly
less than the pivot, advance the boundary and swap the element into the
boundary position. -/
def specPartScan (data : List Int) (pivot low high : Int) : Int × List Int :=
  (List.range (high - low).toNat).foldl
    (fun st (t : Nat) =>
      if st.2.getD (low + (t : Int)).toNat 0 < pivot then
        (st.1 + 1, swapAt st.2 (st.1 + 1).toNat (low + (t : Int)).toNat)
      else st)
    (low - 1, data)

/-- The specified partition step: pivot is the element at `high`, the
boundary starts one below `low`, and after the scan the pivot is
swapped to the boundary's successor, which is returned. -/
def specPartition (data : List Int) (low high : Int) : Int × List Int :=
  let pivot := data.getD high.toNat 0
  let s := specPartScan data pivot low high
  (s.1 + 1, swapAt s.2 (s.1 + 1).toNat high.toNat)

theorem partLoop_eq_foldl (data : List Int) (pivot : Int) (i j high : Int) :
    QuickSort.partLoop data pivot i j high =
      (List.range (high - j).toNat).foldl
        (fun st (t : Nat) =>
          if st.2.getD (j + (t : Int)).toNat 0 < pivot then
            (st.1 + 1, swapAt st.2 (st.1 + 1).toNat (j + (t : Int)).toNat)
          else st)
        (i, data) := by
  rw [QuickSort.partLoop]
  simp only [QuickSort.getI, QuickSort.swapI]
  split
  · rename_i hjh
    have hm : (high - j).toNat = (high - (j + 1)).toNat + 1 := by omega
    rw [hm, List.range_succ_eq_map]
    simp only [List.foldl_cons, List.foldl_map, Nat.cast_zero, add_zero]
    split
    · rename_i hlt
      rw [partLoop_eq_foldl _ pivot (i + 1) (j + 1) high]
      apply List.foldl_ext
      intro st t ht
      have hc : j + ((Nat.succ t : Nat) : Int) = j + 1 + (t : Int) := by
        push_cast
        ring
      rw [hc]
    · rename_i hge
      rw [partLoop_eq_foldl data pivot i (j + 1) high]
      apply List.foldl_ext
      intro st t ht
      have hc : j + ((Nat.succ t : Nat) : Int) = j + 1 + (t : Int) := by
        push_cast
        ring
      rw [hc]
  · rename_i hjh
    have hm : (high - j).toNat = 0 := by omega
    rw [hm]
    rfl
termination_by (high - j).toNat

/-- `QuickSort::partition` computes exactly the specified partition
step. -/
theorem partition_eq_spec (data : List Int) (low high : Int) :
    QuickSort.partition data low high = specPartition data low high := by
  simp only [QuickSort.partition, specPartition, specPartScan,
    QuickSort.getI, QuickSort.swapI]
  rw [partLoop_eq_foldl]

/-! ## Parser: supporting lemmas -/

theorem dropWhile_head_false (p : Char → Bool) :
    ∀ (cs : List Char) (c : Char) (rest : List Char),
      cs.dropWhile p = c :: rest → p c = false
  | x :: t, c, rest, h => by
    by_cases hx : p x
    · rw [List.dropWhile_cons_of_pos hx] at h
      exact dropWhile_head_false p t c rest h
    · rw [List.dropWhile_cons_of_neg hx] at h
      cases h
      exact Bool.of_not_eq_true hx

theorem space_not_digit (c : Char) (h : isSpaceChar c = true) :
    isDigitChar c = false := by
  rw [isSpaceChar] at h
  simp only [Bool.or_eq_true, decide_eq_true_eq] at h
  rcases h with ((((h | h) | h) | h) | h) | h <;> subst h <;> decide

theorem digit_not_sign (c : Char) (h : isDigitChar c = true) :
    c ≠ '-' ∧ c ≠ '+' := by
  constructor <;> intro he <;> subst he <;> revert h <;> decide

theorem readDigits_length :
    ∀ (cs : List Char) (acc : Nat), (readDigits cs acc).2.length ≤ cs.length
  | [], _ => by simp [readDigits]
  | c :: rest, acc => by
    rw [readDigits]
    split
    · exact le_trans (readDigits_length rest _) (by simp)
    · simp

theorem readDigits_append (ds : List Char) :
    ∀ (rest0 : List Char) (acc : Nat), ds.all isDigitChar = true →
      (∀ r rs, rest0 = r :: rs → isDigitChar r = false) →
      readDigits (ds ++ rest0) acc =
        (ds.foldl (fun a c => a * 10 + digitVal c) acc, rest0) := by
  induction ds with
  | nil =>
    intro rest0 acc _ hr
    cases rest0 with
    | nil => rfl
    | cons r rs =>
      show readDigits (r :: rs) acc = (acc, r :: rs)
      rw [readDigits, if_neg (by rw [hr r rs rfl]; exact Bool.false_ne_true)]
  | cons d ds ih =>
    intro rest0 acc hall hr
    simp only [List.all_cons, Bool.and_eq_true] at hall
    show readDigits (d :: (ds ++ rest0)) acc = _
    rw [readDigits, if_pos hall.1]
    rw [ih rest0 _ hall.2 hr]
    rfl

theorem extractInt_some_length (cs : List Char) :
    ∀ vr, extractInt cs = some vr → vr.2.length < cs.length := by
  intro vr h
  rw [extractInt] at h
  have hdl := (List.dropWhile_sublist (l := cs) isSpaceChar).length_le
  split at h
  · cases h
  · rename_i c rest hdrop
    rw [hdrop] at hdl
    split at h
    · -- leading minus sign
      split at h
      · rename_i d ds
        split at h
        · rename_i hd
          dsimp only [] at h
          split at h
          · cases h
            show (readDigits (d :: ds) 0).2.length < cs.length
            have h1 : (readDigits ds (0 * 10 + digitVal d)).2.length ≤ ds.length :=
              readDigits_length ds _
            rw [readDigits, if_pos hd]
            simp only [List.length_cons] at hdl
            omega
          · cases h
        · cases h
      · cases h
    · split at h
      · -- leading plus sign
        split at h
        · rename_i d ds
          split at h
          · rename_i hd
            dsimp only [] at h
            split at h
            · cases h
              show (readDigits (d :: ds) 0).2.length < cs.length
              have h1 : (readDigits ds (0 * 10 + digitVal d)).2.length ≤ ds.length :=
                readDigits_length ds _
              rw [readDigits, if_pos hd]
              simp only [List.length_cons] at hdl
              omega
            · cases h
          · cases h
        · cases h
      · split at h
        · -- leading digit
          rename_i hd
          dsimp only [] at h
          split at h
          · cases h
            show (readDigits (c :: rest) 0).2.length < cs.length
            have h1 : (readDigits rest (0 * 10 + digitVal c)).2.length ≤ rest.length :=
              readDigits_length rest _
            rw [readDigits, if_pos hd]
            simp only [List.length_cons] at hdl
            omega
          · cases h
        · cases h

theorem tokensF_fuel :
    ∀ (fuel1 fuel2 : Nat) (cs : List Char), cs.length < fuel1 →
      cs.length < fuel2 → tokensF fuel1 cs = tokensF fuel2 cs
  | fuel1 + 1, fuel2 + 1, cs, h1, h2 => by
    show tokensF (fuel1 + 1) cs = tokensF (fuel2 + 1) cs
    rw [tokensF, tokensF]
    have hdl := (List.dropWhile_sublist (l := cs) isSpaceChar).length_le
    split
    · rfl
    · rename_i c rest hdrop
      rw [hdrop] at hdl
      have hc : isSpaceChar c = false := dropWhile_head_false _ cs c rest hdrop
      have hrem := (List.dropWhile_sublist (l := rest)
        (fun x => !isSpaceChar x)).length_le
      have hstep : (c :: rest).dropWhile (fun x => !isSpaceChar x) =
          rest.dropWhile (fun x => !isSpaceChar x) :=
        List.dropWhile_cons_of_pos (by simp [hc])
      rw [hstep]
      rw [tokensF_fuel fuel1 fuel2 _ (by simp at hdl; omega) (by simp at hdl; omega)]

theorem tokens_nil (cs : List Char) (h : cs.dropWhile isSpaceChar = []) :
    tokens cs = [] := by
  rw [tokens, tokensF, h]

theorem tokens_cons (cs : List Char) (c : Char) (rest : List Char)
    (h : cs.dropWhile isSpaceChar = c :: rest) :
    tokens cs = (c :: rest).takeWhile (fun x => !isSpaceChar x) ::
      tokens ((c :: rest).dropWhile (fun x => !isSpaceChar x)) := by
  have hdl := (List.dropWhile_sublist (l := cs) isSpaceChar).length_le
  rw [h] at hdl
  have hc : isSpaceChar c = false := dropWhile_head_false _ cs c rest h
  have hrem := (List.dropWhile_sublist (l := rest)
    (fun x => !isSpaceChar x)).length_le
  have hlen1 : ((c :: rest).dropWhile (fun x => !isSpaceChar x)).length
      < cs.length := by
    rw [List.dropWhile_cons_of_pos (by simp [hc])]
    simp only [List.length_cons] at hdl
    omega
  conv_lhs => rw [tokens, tokensF, h]
  show (c :: rest).takeWhile (fun x => !isSpaceChar x) ::
      tokensF cs.length ((c :: rest).dropWhile (fun x => !isSpaceChar x)) =
    (c :: rest).takeWhile (fun x => !isSpaceChar x) ::
      tokens ((c :: rest).dropWhile (fun x => !isSpaceChar x))
  rw [tokens]
  exact congrArg (List.cons _) (tokensF_fuel cs.length _ _ hlen1 (by omega))

theorem parseLoopF_fuel :
    ∀ (fuel1 fuel2 : Nat) (cs : List Char), cs.length < fuel1 →
      cs.length < fuel2 → parseLoopF fuel1 cs = parseLoopF fuel2 cs
  | fuel1 + 1, fuel2 + 1, cs, h1, h2 => by
    show parseLoopF (fuel1 + 1) cs = parseLoopF (fuel2 + 1) cs
    rw [parseLoopF, parseLoopF]
    split
    · rename_i vr hvr
      have hlt := extractInt_some_length cs vr hvr
      rw [parseLoopF_fuel fuel1 fuel2 vr.2 (by omega) (by omega)]
    · rfl

theorem extractInt_none_of_all_space (cs : List Char)
    (h : cs.dropWhile isSpaceChar = []) : extractInt cs = none := by
  rw [extractInt, h]


theorem extractInt_dropWhile (cs : List Char) (c : Char) (rest : List Char)
    (hdrop : cs.dropWhile isSpaceChar = c :: rest) :
    extractInt cs = extractInt (c :: rest) := by
  have hc : isSpaceChar c = false := dropWhile_head_false _ cs c rest hdrop
  rw [extractInt, extractInt, hdrop, List.dropWhile_cons_of_neg (by simp [hc])]

theorem isIntLit_cons (c : Char) (rest : List Char) :
    isIntLit (c :: rest) =
      if c = '-' || c = '+' then !rest.isEmpty && rest.all isDigitChar
      else isDigitChar c && rest.all isDigitChar := rfl

theorem tokenVal_cons (c : Char) (rest : List Char) :
    tokenVal (c :: rest) =
      if c = '-' then -(digitsVal rest : Int)
      else if c = '+' then (digitsVal rest : Int)
      else (digitsVal (c :: rest) : Int) := rfl

theorem extractInt_cons_nospace (c : Char) (rest : List Char)
    (hc : isSpaceChar c = false) :
    extractInt (c :: rest) =
      (if c = '-' then
        match rest with
        | d :: _ =>
          if isDigitChar d then
            if inIntRange (-((readDigits rest 0).1 : Int)) then
              some (-((readDigits rest 0).1 : Int), (readDigits rest 0).2)
            else none
          else none
        | [] => none
      else if c = '+' then
        match rest with
        | d :: _ =>
          if isDigitChar d then
            if inIntRange ((readDigits rest 0).1 : Int) then
              some (((readDigits rest 0).1 : Int), (readDigits rest 0).2)
            else none
          else none
        | [] => none
      else if isDigitChar c then
        if inIntRange ((readDigits (c :: rest) 0).1 : Int) then
          some (((readDigits (c :: rest) 0).1 : Int),
            (readDigits (c :: rest) 0).2)
        else none
      else none) := by
  rw [extractInt, List.dropWhile_cons_of_neg (by simp [hc])]

/-- The maximal digit run read from a position is insensitive to
truncating the input at the first whitespace character: digits are not
whitespace, so the run ends at or before it either way. -/
theorem readDigits_fst_takeWhile :
    ∀ (xs : List Char) (acc : Nat),
      (readDigits xs acc).1 =
        (readDigits (xs.takeWhile (fun x => !isSpaceChar x)) acc).1
  | [], _ => rfl
  | x :: t, acc => by
    by_cases hx : isDigitChar x = true
    · have hxs : isSpaceChar x = false := by
        cases h2 : isSpaceChar x
        · rfl
        · rw [space_not_digit x h2] at hx
          exact absurd hx Bool.false_ne_true
      rw [List.takeWhile_cons_of_pos (by simp [hxs])]
      rw [readDigits, readDigits, if_pos hx, if_pos hx]
      exact readDigits_fst_takeWhile t _
    · by_cases hxs : isSpaceChar x = true
      · rw [List.takeWhile_cons_of_neg (by simp [hxs])]
        rw [readDigits, if_neg hx]
        rfl
      · rw [List.takeWhile_cons_of_pos (by simp [Bool.of_not_eq_true hxs])]
        rw [readDigits, readDigits, if_neg hx, if_neg hx]

/-- When the leading token is a valid (in-range) integer literal,
stream extraction returns exactly its value and stops exactly at its
end. -/
theorem extract_step_some (cs : List Char) (c : Char) (rest : List Char)
    (hdrop : cs.dropWhile isSpaceChar = c :: rest)
    (hit : isIntToken ((c :: rest).takeWhile (fun x => !isSpaceChar x)) = true) :
    extractInt cs = some
      (tokenVal ((c :: rest).takeWhile (fun x => !isSpaceChar x)),
        (c :: rest).dropWhile (fun x => !isSpaceChar x)) := by
  have hc : isSpaceChar c = false := dropWhile_head_false _ cs c rest hdrop
  have htok : (c :: rest).takeWhile (fun x => !isSpaceChar x) =
      c :: rest.takeWhile (fun x => !isSpaceChar x) :=
    List.takeWhile_cons_of_pos (by simp [hc])
  have hremt : (c :: rest).dropWhile (fun x => !isSpaceChar x) =
      rest.dropWhile (fun x => !isSpaceChar x) :=
    List.dropWhile_cons_of_pos (by simp [hc])
  set tokTail := rest.takeWhile (fun x => !isSpaceChar x) with htt
  set remTail := rest.dropWhile (fun x => !isSpaceChar x) with hrt
  have hsplit : rest = tokTail ++ remTail :=
    (List.takeWhile_append_dropWhile (p := fun x => !isSpaceChar x)
      (l := rest)).symm
  have hremhead : ∀ r rs, remTail = r :: rs → isDigitChar r = false := by
    intro r rs hr
    have h1 : (fun x => !isSpaceChar x) r = false := by
      apply dropWhile_head_false (fun x => !isSpaceChar x) rest r rs
      rw [← hrt, hr]
    simp only [Bool.not_eq_false'] at h1
    exact space_not_digit r h1
  rw [htok] at hit
  rw [isIntToken, Bool.and_eq_true] at hit
  have hlit : isIntLit (c :: tokTail) = true := hit.1
  have hrange : inIntRange (tokenVal (c :: tokTail)) = true := hit.2
  rw [htok, hremt, extractInt_dropWhile cs c rest hdrop,
    extractInt_cons_nospace c rest hc]
  by_cases hcm : c = '-'
  · rw [if_pos hcm]
    rw [isIntLit_cons, if_pos (by rw [hcm]; simp)] at hlit
    cases htokT : tokTail with
    | nil =>
      rw [htokT] at hlit
      simp at hlit
    | cons d ds =>
      rw [htokT] at hlit hsplit hrange
      simp only [List.all_cons, Bool.and_eq_true] at hlit
      have hd : isDigitChar d = true := hlit.2.1
      rw [tokenVal_cons, if_pos hcm, digitsVal] at hrange
      rw [List.cons_append] at hsplit
      rw [hsplit]
      show (if isDigitChar d then
        if inIntRange (-((readDigits (d :: (ds ++ remTail)) 0).1 : Int)) then
          some (-((readDigits (d :: (ds ++ remTail)) 0).1 : Int),
            (readDigits (d :: (ds ++ remTail)) 0).2)
        else none else none) = _
      rw [if_pos hd]
      have hra : readDigits ((d :: ds) ++ remTail) 0 =
          ((d :: ds).foldl (fun a c => a * 10 + digitVal c) 0, remTail) :=
        readDigits_append (d :: ds) remTail 0
          (by simp only [List.all_cons, Bool.and_eq_true]
              exact ⟨hd, hlit.2.2⟩)
          hremhead
      rw [List.cons_append] at hra
      rw [hra, if_pos hrange, tokenVal_cons, if_pos hcm]
      rfl
  · by_cases hcp : c = '+'
    · rw [if_neg hcm, if_pos hcp]
      rw [isIntLit_cons, if_pos (by rw [hcp]; simp)] at hlit
      cases htokT : tokTail with
      | nil =>
        rw [htokT] at hlit
        simp at hlit
      | cons d ds =>
        rw [htokT] at hlit hsplit hrange
        simp only [List.all_cons, Bool.and_eq_true] at hlit
        have hd : isDigitChar d = true := hlit.2.1
        rw [tokenVal_cons, if_neg hcm, if_pos hcp, digitsVal] at hrange
        rw [List.cons_append] at hsplit
        rw [hsplit]
        show (if isDigitChar d then
          if inIntRange (((readDigits (d :: (ds ++ remTail)) 0).1 : Int)) then
            some (((readDigits (d :: (ds ++ remTail)) 0).1 : Int),
              (readDigits (d :: (ds ++ remTail)) 0).2)
          else none else none) = _
        rw [if_pos hd]
        have hra : readDigits ((d :: ds) ++ remTail) 0 =
            ((d :: ds).foldl (fun a c => a * 10 + digitVal c) 0, remTail) :=
          readDigits_append (d :: ds) remTail 0
            (by simp only [List.all_cons, Bool.and_eq_true]
                exact ⟨hd, hlit.2.2⟩)
            hremhead
        rw [List.cons_append] at hra
        rw [hra, if_pos hrange, tokenVal_cons, if_neg hcm, if_pos hcp]
        rfl
    · rw [isIntLit_cons, if_neg (by simp [hcm, hcp])] at hlit
      simp only [Bool.and_eq_true] at hlit
      have hcd : isDigitChar c = true := hlit.1
      rw [if_neg hcm, if_neg hcp, if_pos hcd]
      rw [tokenVal_cons, if_neg hcm, if_neg hcp, digitsVal] at hrange
      have hra : readDigits ((c :: tokTail) ++ remTail) 0 =
          ((c :: tokTail).foldl (fun a c => a * 10 + digitVal c) 0, remTail) :=
        readDigits_append (c :: tokTail) remTail 0
          (by simp only [List.all_cons, Bool.and_eq_true]
              exact ⟨hcd, hlit.2⟩)
          hremhead
      rw [List.cons_append] at hra
      have hsplit2 : c :: rest = c :: (tokTail ++ remTail) := by rw [← hsplit]
      rw [hsplit2, hra, if_pos hrange, tokenVal_cons, if_neg hcm, if_neg hcp]
      rfl

/-- When no integer can be extracted from the leading token (bad
syntax, or a literal out of `int` range), stream extraction from the
whole line fails as well. -/
theorem extract_step_none (cs : List Char) (c : Char) (rest : List Char)
    (hdrop : cs.dropWhile isSpaceChar = c :: rest)
    (hnone : extractInt ((c :: rest).takeWhile (fun x => !isSpaceChar x))
      = none) :
    extractInt cs = none := by
  have hc : isSpaceChar c = false := dropWhile_head_false _ cs c rest hdrop
  have htok : (c :: rest).takeWhile (fun x => !isSpaceChar x) =
      c :: rest.takeWhile (fun x => !isSpaceChar x) :=
    List.takeWhile_cons_of_pos (by simp [hc])
  set tokTail := rest.takeWhile (fun x => !isSpaceChar x) with htt
  rw [htok, extractInt_cons_nospace c tokTail hc] at hnone
  rw [extractInt_dropWhile cs c rest hdrop, extractInt_cons_nospace c rest hc]
  by_cases hcm : c = '-'
  · rw [if_pos hcm] at hnone ⊢
    cases hrest : rest with
    | nil => rfl
    | cons d rest2 =>
      show (if isDigitChar d then
        if inIntRange (-((readDigits (d :: rest2) 0).1 : Int)) then
          some (-((readDigits (d :: rest2) 0).1 : Int),
            (readDigits (d :: rest2) 0).2)
        else none else none) = none
      by_cases hsd : isSpaceChar d = true
      · have hdF : ¬ isDigitChar d = true := by
          rw [space_not_digit d hsd]
          exact Bool.false_ne_true
        rw [if_neg hdF]
      · have htokT : tokTail = d :: rest2.takeWhile (fun x => !isSpaceChar x) := by
          rw [htt, hrest]
          exact List.takeWhile_cons_of_pos (by simp [hsd])
        rw [htokT] at hnone
        by_cases hdd : isDigitChar d = true
        · rw [if_pos hdd]
          rw [show (match d :: rest2.takeWhile (fun x => !isSpaceChar x) with
            | d2 :: _ =>
              if isDigitChar d2 then
                if inIntRange (-((readDigits
                    (d :: rest2.takeWhile (fun x => !isSpaceChar x)) 0).1
                      : Int)) then
                  some (-((readDigits
                    (d :: rest2.takeWhile (fun x => !isSpaceChar x)) 0).1
                      : Int),
                    (readDigits
                      (d :: rest2.takeWhile (fun x => !isSpaceChar x)) 0).2)
                else none
              else none
            | [] => none) =
              if isDigitChar d then
                if inIntRange (-((readDigits
                    (d :: rest2.takeWhile (fun x => !isSpaceChar x)) 0).1
                      : Int)) then
                  some (-((readDigits
                    (d :: rest2.takeWhile (fun x => !isSpaceChar x)) 0).1
                      : Int),
                    (readDigits
                      (d :: rest2.takeWhile (fun x => !isSpaceChar x)) 0).2)
                else none
              else none from rfl, if_pos hdd] at hnone
          have hval : (readDigits (d :: rest2) 0).1 =
              (readDigits (d :: rest2.takeWhile (fun x => !isSpaceChar x)) 0).1 := by
            have h := readDigits_fst_takeWhile (d :: rest2) 0
            rw [List.takeWhile_cons_of_pos (by simp [hsd])] at h
            exact h
          split at hnone
          · cases hnone
          · rename_i hrangeF
            rw [hval]
            exact if_neg hrangeF
        · rw [if_neg hdd]
  · by_cases hcp : c = '+'
    · rw [if_neg hcm, if_pos hcp] at hnone ⊢
      cases hrest : rest with
      | nil => rfl
      | cons d rest2 =>
        show (if isDigitChar d then
          if inIntRange (((readDigits (d :: rest2) 0).1 : Int)) then
            some (((readDigits (d :: rest2) 0).1 : Int),
              (readDigits (d :: rest2) 0).2)
          else none else none) = none
        by_cases hsd : isSpaceChar d = true
        · have hdF : ¬ isDigitChar d = true := by
            rw [space_not_digit d hsd]
            exact Bool.false_ne_true
          rw [if_neg hdF]
        · have htokT : tokTail = d :: rest2.takeWhile (fun x => !isSpaceChar x) := by
            rw [htt, hrest]
            exact List.takeWhile_cons_of_pos (by simp [hsd])
          rw [htokT] at hnone
          by_cases hdd : isDigitChar d = true
          · rw [if_pos hdd]
            rw [show (match d :: rest2.takeWhile (fun x => !isSpaceChar x) with
              | d2 :: _ =>
                if isDigitChar d2 then
                  if inIntRange (((readDigits
                      (d :: rest2.takeWhile (fun x => !isSpaceChar x)) 0).1
                        : Int)) then
                    some (((readDigits
                      (d :: rest2.takeWhile (fun x => !isSpaceChar x)) 0).1
                        : Int),
                      (readDigits
                        (d :: rest2.takeWhile (fun x => !isSpaceChar x)) 0).2)
                  else none
                else none
              | [] => none) =
                if isDigitChar d then
                  if inIntRange (((readDigits
                      (d :: rest2.takeWhile (fun x => !isSpaceChar x)) 0).1
                        : Int)) then
                    some (((readDigits
                      (d :: rest2.takeWhile (fun x => !isSpaceChar x)) 0).1
                        : Int),
                      (readDigits
                        (d :: rest2.takeWhile (fun x => !isSpaceChar x)) 0).2)
                  else none
                else none from rfl, if_pos hdd] at hnone
            have hval : (readDigits (d :: rest2) 0).1 =
                (readDigits (d :: rest2.takeWhile (fun x => !isSpaceChar x)) 0).1 := by
              have h := readDigits_fst_takeWhile (d :: rest2) 0
              rw [List.takeWhile_cons_of_pos (by simp [hsd])] at h
              exact h
            split at hnone
            · cases hnone
            · rename_i hrangeF
              rw [hval]
              exact if_neg hrangeF
          · rw [if_neg hdd]
    · by_cases hcd : isDigitChar c = true
      · rw [if_neg hcm, if_neg hcp, if_pos hcd] at hnone ⊢
        have hval : (readDigits (c :: rest) 0).1 =
            (readDigits (c :: tokTail) 0).1 := by
          have h := readDigits_fst_takeWhile (c :: rest) 0
          rw [htok] at h
          exact h
        split at hnone
        · cases hnone
        · rename_i hrangeF
          rw [hval]
          exact if_neg hrangeF
      · rw [if_neg hcm, if_neg hcp, if_neg hcd]

/-- Core of the parsing correspondence: on a line whose tokens are each
either whole integer literals or not extraction targets at all, the
extraction loop produces exactly the values of the maximal integer-token
prefix of the token stream. -/
theorem parseLoopF_eq_tokenParse :
    ∀ (fuel : Nat) (cs : List Char), cs.length < fuel →
      goodTokens cs = true →
      parseLoopF fuel cs = ((tokens cs).takeWhile isIntToken).map tokenVal
  | fuel + 1, cs, hlen, hg => by
    cases hdrop : cs.dropWhile isSpaceChar with
    | nil =>
      rw [tokens_nil cs hdrop]
      show parseLoopF (fuel + 1) cs = []
      rw [parseLoopF, extractInt_none_of_all_space cs hdrop]
    | cons c rest =>
      have hc : isSpaceChar c = false := dropWhile_head_false _ cs c rest hdrop
      have hdl := (List.dropWhile_sublist (l := cs) isSpaceChar).length_le
      rw [hdrop] at hdl
      have htcons := tokens_cons cs c rest hdrop
      have hremlen : ((c :: rest).dropWhile (fun x => !isSpaceChar x)).length
          < cs.length := by
        rw [List.dropWhile_cons_of_pos (by simp [hc])]
        have hrem := (List.dropWhile_sublist (l := rest)
          (fun x => !isSpaceChar x)).length_le
        simp only [List.length_cons] at hdl
        omega
      rw [goodTokens, htcons, List.all_cons, Bool.and_eq_true] at hg
      by_cases hit : isIntToken ((c :: rest).takeWhile
          (fun x => !isSpaceChar x)) = true
      · have hext := extract_step_some cs c rest hdrop hit
        rw [htcons, List.takeWhile_cons_of_pos hit, List.map_cons]
        rw [parseLoopF, hext]
        show tokenVal ((c :: rest).takeWhile (fun x => !isSpaceChar x)) ::
            parseLoopF fuel ((c :: rest).dropWhile (fun x => !isSpaceChar x)) = _
        rw [parseLoopF_eq_tokenParse fuel
          ((c :: rest).dropWhile (fun x => !isSpaceChar x)) (by omega) hg.2]
      · have htoknone : extractInt ((c :: rest).takeWhile
            (fun x => !isSpaceChar x)) = none := by
          have h0 := hg.1
          rw [Bool.or_eq_true] at h0
          rcases h0 with h1 | h1
          · rw [Bool.not_eq_true'] at h1
            exact Option.not_isSome_iff_eq_none.1 (by rw [h1]; exact
              Bool.false_ne_true)
          · exact absurd h1 hit
        have hext := extract_step_none cs c rest hdrop htoknone
        rw [htcons, List.takeWhile_cons_of_neg hit, List.map_nil]
        show parseLoopF (fuel + 1) cs = []
        rw [parseLoopF, hext]

/-! ## The claims -/

/-- C1: for every input sequence of integers, after running either
`BubbleSort::sort` or `QuickSort::sort` on it, the resulting sequence
is a permutation of the input: the multiset of values in the output
equals the multiset of values in the input (no values added, removed,
or altered). -/
theorem claim_C1 (data : List Int) :
    ((BubbleSort.sort data : List Int) : Multiset Int) = (data : Multiset Int) ∧
    ((QuickSort.sort data : List Int) : Multiset Int) = (data : Multiset Int) :=
  ⟨Multiset.coe_eq_coe.2 (BubbleSort.bsort_perm data),
    Multiset.coe_eq_coe.2 (QuickSort.qsort_perm data)⟩

/-- C2: for every input sequence, after running either `BubbleSort::sort`
or `QuickSort::sort`, every adjacent pair of elements at positions
`(i, i+1)` of the result satisfies `a ≤ b` (non-descending order). -/
theorem claim_C2 (data : List Int) (i : Nat) :
    (i + 1 < (BubbleSort.sort data).length →
      (BubbleSort.sort data).getD i 0 ≤ (BubbleSort.sort data).getD (i + 1) 0) ∧
    (i + 1 < (QuickSort.sort data).length →
      (QuickSort.sort data).getD i 0 ≤ (QuickSort.sort data).getD (i + 1) 0) := by
  constructor
  · intro h
    rw [BubbleSort.bsort_length] at h
    exact BubbleSort.bsort_pairs data i (i + 1) (by omega) h
  · intro h
    rw [QuickSort.qsort_length] at h
    exact QuickSort.qsort_pairs data i (i + 1) (by omega) h

theorem claim_C2_witness :
    (0 + 1 < (BubbleSort.sort [3, 1, 2]).length ∧
      (BubbleSort.sort [3, 1, 2]).getD 0 0 ≤ (BubbleSort.sort [3, 1, 2]).getD 1 0) ∧
    (0 + 1 < (QuickSort.sort [3, 1, 2]).length ∧
      (QuickSort.sort [3, 1, 2]).getD 0 0 ≤ (QuickSort.sort [3, 1, 2]).getD 1 0) := by
  have h1 : 0 + 1 < (BubbleSort.sort [3, 1, 2]).length := by
    rw [BubbleSort.bsort_length]
    decide
  have h2 : 0 + 1 < (QuickSort.sort [3, 1, 2]).length := by
    rw [QuickSort.qsort_length]
    decide
  exact ⟨⟨h1, (claim_C2 [3, 1, 2] 0).1 h1⟩, ⟨h2, (claim_C2 [3, 1, 2] 0).2 h2⟩⟩

/-- C3: for every input sequence, `BubbleSort::sort` and
`QuickSort::sort` produce identical output sequences. -/
theorem claim_C3 (data : List Int) :
    BubbleSort.sort data = QuickSort.sort data :=
  bubble_eq_quick data

/-- C4: selector `1` invokes `BubbleSort::sort` on the parsed sequence,
selector `2` invokes `QuickSort::sort`, and any other value prints
"Invalid choice.", exits with a non-zero status, performs no sort and
prints no "Sorted Data" line. -/
theorem claim_C4 (data : List Int) (choice : Int) :
    (choice = 1 →
      runMain data choice = ⟨some (BubbleSort.sort data), false, 0⟩) ∧
    (choice = 2 →
      runMain data choice = ⟨some (QuickSort.sort data), false, 0⟩) ∧
    (choice ≠ 1 → choice ≠ 2 →
      (runMain data choice).invalidMsg = true ∧
      (runMain data choice).exitCode ≠ 0 ∧
      (runMain data choice).sortedData = none) := by
  refine ⟨?_, ?_, ?_⟩
  · intro h
    rw [runMain, if_pos h]
  · intro h
    rw [runMain, if_neg (by omega), if_pos h]
  · intro h1 h2
    rw [runMain, if_neg h1, if_neg h2]
    exact ⟨rfl, by decide, rfl⟩

theorem claim_C4_witness :
    runMain [3, 1, 2] 1 = ⟨some (BubbleSort.sort [3, 1, 2]), false, 0⟩ ∧
    runMain [3, 1, 2] 2 = ⟨some (QuickSort.sort [3, 1, 2]), false, 0⟩ ∧
    (runMain [3, 1, 2] 7).invalidMsg = true ∧
    (runMain [3, 1, 2] 7).exitCode ≠ 0 ∧
    (runMain [3, 1, 2] 7).sortedData = none := by
  refine ⟨(claim_C4 [3, 1, 2] 1).1 rfl, (claim_C4 [3, 1, 2] 2).2.1 rfl, ?_⟩
  exact (claim_C4 [3, 1, 2] 7).2.2 (by decide) (by decide)

/-- C5: for every sequence and bounds, `QuickSort::partition` computes
exactly the specified procedure: pivot is the element at `high`, the
boundary index starts at `low − 1`, the scan over `low..high−1` swaps
each element strictly below the pivot to the incremented boundary, the
pivot is swapped to the boundary's successor, which is returned. -/
theorem claim_C5 (data : List Int) (low high : Int) :
    QuickSort.partition data low high = specPartition data low high :=
  partition_eq_spec data low high

/-- C6: `BubbleSort::sort` performs exactly `n` passes unconditionally
(no early exit); pass `i` scans only adjacent pairs in the prefix
`[0, n−i−1)`; a swap happens exactly when the left element is strictly
greater, so equal elements are never swapped. -/
theorem claim_C6 (data : List Int) :
    BubbleSort.sort data = specBubbleSort data :=
  bubble_sort_eq_spec data

/-- C7: both sorts map the empty sequence to the empty sequence and
leave every single-element sequence unchanged. -/
theorem claim_C7 :
    (BubbleSort.sort [] = [] ∧ QuickSort.sort [] = []) ∧
    ∀ a : Int, BubbleSort.sort [a] = [a] ∧ QuickSort.sort [a] = [a] := by
  refine ⟨⟨?_, ?_⟩, ?_⟩
  · exact List.length_eq_zero.1 (BubbleSort.bsort_length [])
  · exact List.length_eq_zero.1 (QuickSort.qsort_length [])
  · intro a
    exact ⟨List.perm_singleton.1 (BubbleSort.bsort_perm [a]),
      List.perm_singleton.1 (QuickSort.qsort_perm [a])⟩

/-- C8 as stated is false: on the line `"12abc"` the stream parser
extracts `12` from the token `12abc`, while the maximal numeric prefix
of the token stream is empty (the first token is not a valid integer). -/
theorem claim_C8_counterexample : parseInts "12abc" ≠ tokenParse "12abc" := by
  decide

/-- C8 (amended): the parse stops at the first position where no
integer can be extracted (bad syntax, or a literal whose value does not
fit in a 32-bit `int`, where extraction sets `failbit`); provided every
whitespace-delimited token either is a valid in-range integer literal
in full or admits no integer extraction at its start, the parsed
sequence is exactly the maximal prefix of the token stream made of
valid integer tokens (later tokens, numeric or not, are discarded);
the empty line parses to the empty sequence. -/
theorem claim_C8 :
    (∀ s : String, goodTokens s.toList = true →
      parseInts s = tokenParse s) ∧
    parseInts "" = [] := by
  constructor
  · intro s hg
    exact parseLoopF_eq_tokenParse (s.toList.length + 1) s.toList (by omega) hg
  · decide

theorem claim_C8_witness :
    goodTokens ("5 x 7").toList = true ∧
    parseInts "5 x 7" = tokenParse "5 x 7" :=
  ⟨by decide, claim_C8.1 "5 x 7" (by decide)⟩

/-- Overflow fidelity of the extraction model: a literal whose value
exceeds the `int` range is an extraction failure (`failbit`), so the
parse stops there rather than reading an unbounded value. -/
theorem parseInts_overflow_stops :
    parseInts "5 99999999999999999999 7" = [5] := by
  decide

/-- C9: every element access performed by `BubbleSort::sort`,
`QuickSort::sort`, `QuickSort::quicksort` and `QuickSort::partition`
is within bounds: the bounds-checked interpreters never fail and agree
with the sorts; in particular the call `quicksort(data, 0, -1)` made on
the empty sequence (the wrapped `data.size() - 1`) performs no element
access because the `low < high` guard fails. -/
theorem claim_C9 (data : List Int) :
    BubbleSort.sortE data = some (BubbleSort.sort data) ∧
    QuickSort.sortE data = some (QuickSort.sort data) ∧
    QuickSort.quicksortE [] 0 (-1) = some [] := by
  refine ⟨BubbleSort.sortE_eq data, QuickSort.qsortE_eq data, ?_⟩
  rw [QuickSort.quicksortE, if_neg (by decide)]

/-- C10: `quicksort(data, low, high)` (and, under the guard that calls
it, its partition step) leaves every element at a position outside the
inclusive range `[low, high]` unchanged, and preserves the length.
(`low` is non-negative in every execution the program can make; a
negative `low` would make the C++ scan read out of bounds.) -/
theorem claim_C10 (data : List Int) (low high : Int) (hlow : 0 ≤ low) :
    (QuickSort.quicksort data low high).length = data.length ∧
    (∀ k : Nat, (k : Int) < low ∨ high < (k : Int) →
      (QuickSort.quicksort data low high).getD k 0 = data.getD k 0) ∧
    (low ≤ high → ∀ k : Nat, (k : Int) < low ∨ high < (k : Int) →
      (QuickSort.partition data low high).2.getD k 0 = data.getD k 0) := by
  refine ⟨QuickSort.quicksort_length data low high, ?_, ?_⟩
  · intro k hk
    exact QuickSort.quicksort_frame data low high hlow k hk
  · intro hlh k hk
    exact QuickSort.partition_frame data low high hlow hlh k hk

theorem claim_C10_witness :
    (0 : Int) ≤ 1 ∧
    (QuickSort.quicksort [5, 3, 9] 1 2).length = ([5, 3, 9] : List Int).length ∧
    ((0 : Int) < 1 ∨ (2 : Int) < 0) ∧
    (QuickSort.quicksort [5, 3, 9] 1 2).getD 0 0 =
      ([5, 3, 9] : List Int).getD 0 0 ∧
    (QuickSort.partition [5, 3, 9] 1 2).2.getD 0 0 =
      ([5, 3, 9] : List Int).getD 0 0 := by
  have h := claim_C10 [5, 3, 9] 1 2 (by decide)
  exact ⟨by decide, h.1, Or.inl (by decide),
    h.2.1 0 (Or.inl (by decide)), h.2.2 (by decide) 0 (Or.inl (by decide))⟩
